import Mathlib

/-!
Verification of the checkers rules engine in `checkers.py` (Neon Checkers).

The board is the source's list-of-lists of signed integers:
`1` = Red man, `2` = Red king, `-1` = Blue man, `-2` = Blue king, `0` = empty.
Red sits on rows 5–7 and moves toward row 0; Blue sits on rows 0–2 and moves
toward row 7.  All definitions below are transcribed from the source file;
the recursive capture search `dfs` is given an explicit fuel argument, and
`get_piece_moves` passes fuel 65, which exceeds the number of occupied squares
any 8×8 board can have, so the fueled recursion never runs out before the
source's recursion would have terminated.
-/

namespace Checkers

abbrev Board := List (List Int)

abbrev Coord := Int × Int

/-- `in_bounds(r, c)` from the source: `0 <= r < ROWS and 0 <= c < COLS`. -/
def in_bounds (r c : Int) : Bool :=
  decide (0 ≤ r ∧ r < 8 ∧ 0 ≤ c ∧ c < 8)

/-- Read `board[r][c]`; every engine read is either guarded by `in_bounds` in
the source or covered by the caller contract that coordinates are in range. -/
def getCell (b : Board) (r c : Int) : Int :=
  if 0 ≤ r ∧ 0 ≤ c then (b.getD r.toNat []).getD c.toNat 0 else 0

/-- Write `board[r][c] = v`. -/
def setCell (b : Board) (r c : Int) (v : Int) : Board :=
  b.set r.toNat ((b.getD r.toNat []).set c.toNat v)

/-- A well-formed board: 8 rows of 8 cells, as every board built by the
program is. -/
def BoardWF (b : Board) : Prop :=
  b.length = 8 ∧ ∀ i : Nat, i < 8 → (b.getD i []).length = 8

instance : DecidablePred BoardWF := fun b => by
  unfold BoardWF; infer_instance

/-- `initial_board()`: Blue men on the dark squares of rows 0–2, Red men on
the dark squares of rows 5–7. -/
def initial_board : Board :=
  (List.range 8).map (fun r => (List.range 8).map (fun c =>
    if (r + c) % 2 = 1 then
      (if r < 3 then (-1 : Int) else if 5 ≤ r then 1 else 0)
    else 0))

/-- The 64 board coordinates, in the row-major order the source's loops
`for r in range(ROWS): for c in range(COLS)` visit them. -/
def coordList : List Coord :=
  (List.range 8).flatMap (fun r => (List.range 8).map (fun c => (Int.ofNat r, Int.ofNat c)))

/-- Number of occupied squares of the 8×8 playing window; this is the measure
that makes the source's capture recursion terminate (every jump removes one
captured piece). -/
def pieceCount (b : Board) : Nat :=
  List.countP (fun rc => getCell b rc.1 rc.2 != 0) coordList

/-- The direction list the capture search scans from a square holding `pc`:
all four diagonals for a king, otherwise the two forward diagonals of the
piece's side (Red `pc > 0` moves toward row 0, Blue toward row 7). -/
def scanDirs (pc : Int) : List Coord :=
  if pc.natAbs = 2 then [(-1, -1), (-1, 1), (1, -1), (1, 1)]
  else if pc > 0 then [(-1, -1), (-1, 1)] else [(1, -1), (1, 1)]

/-- The jump test of the capture search: middle and landing squares in
bounds, the middle square holds an opposing piece, and the landing square is
empty. -/
def canJump (bd : Board) (cr cc dr dc : Int) : Bool :=
  let pc := getCell bd cr cc
  let mr := cr + dr
  let mc := cc + dc
  let lr := cr + 2 * dr
  let lc := cc + 2 * dc
  in_bounds mr mc && in_bounds lr lc &&
    decide (getCell bd mr mc ≠ 0) && decide (getCell bd mr mc * pc < 0) &&
    decide (getCell bd lr lc = 0)

/-- The child scratch board the capture search recurses on: the jump is
performed on a clone (move the piece to the landing square, clear the origin,
clear the captured middle square) and the piece is crowned if it landed on
the last row — the source applies this crowning at every landing square of
the chain, not only the final one. -/
def stepBoard (bd : Board) (cr cc dr dc : Int) : Board :=
  let mr := cr + dr
  let mc := cc + dc
  let lr := cr + 2 * dr
  let lc := cc + 2 * dc
  let nb := setCell bd lr lc (getCell bd cr cc)
  let nb := setCell nb cr cc 0
  let nb := setCell nb mr mc 0
  let nb := if getCell nb lr lc = 1 ∧ lr = 0 then setCell nb lr lc 2 else nb
  let nb := if getCell nb lr lc = -1 ∧ lr = 7 then setCell nb lr lc (-2) else nb
  nb

/-- The recursive multi-jump search `dfs` of `get_piece_moves`, with an
explicit fuel argument (each recursive call removes one captured piece, so
fuel exceeding `pieceCount bd` reproduces the source's unbounded recursion).
The `visited` set is threaded exactly as in the source, which never reads it.
A node with no available jump terminates the chain: it contributes its
accumulated non-empty path as one completed capture move. -/
def dfs (fuel : Nat) (bd : Board) (cr cc : Int) (path : List Coord)
    (visited : List (Coord × Coord)) : List (List Coord) :=
  match fuel with
  | 0 => []
  | fuel + 1 =>
    let pc := getCell bd cr cc
    let js := (scanDirs pc).filter (fun d => canJump bd cr cc d.1 d.2)
    if js.isEmpty then (if path.isEmpty then [] else [path])
    else
      js.flatMap (fun d =>
        dfs fuel (stepBoard bd cr cc d.1 d.2) (cr + 2 * d.1) (cc + 2 * d.2)
          (path ++ [(cr + 2 * d.1, cc + 2 * d.2)])
          (((cr + d.1, cc + d.2), (cr + 2 * d.1, cc + 2 * d.2)) :: visited))

/-- `get_piece_moves(board, r, c)`: the list of single-step move paths and
the list of multi-jump capture paths for the piece at `(r, c)`. -/
def get_piece_moves (board : Board) (r c : Int) : List (List Coord) × List (List Coord) :=
  let piece := getCell board r c
  if piece = 0 then ([], [])
  else
    let king := piece.natAbs = 2
    let directions : List Coord :=
      if king then [(-1, -1), (-1, 1), (1, -1), (1, 1)]
      else if piece > 0 then [(-1, -1), (-1, 1)] else [(1, -1), (1, 1)]
    let normal_moves := directions.filterMap (fun d =>
      let nr := r + d.1
      let nc := c + d.2
      if in_bounds nr nc && decide (getCell board nr nc = 0) then some [(nr, nc)] else none)
    let capture_moves := dfs 65 board r c [] []
    (normal_moves, capture_moves)

/-- The capture moves of every piece of `player`, gathered in the order the
source's nested loops produce them. -/
def side_captures (board : Board) (player : Int) : List (Int × Int × List Coord) :=
  coordList.flatMap (fun rc =>
    if getCell board rc.1 rc.2 * player > 0 then
      ((get_piece_moves board rc.1 rc.2).2).map (fun p => (rc.1, rc.2, p))
    else [])

/-- The normal moves of every piece of `player`. -/
def side_normals (board : Board) (player : Int) : List (Int × Int × List Coord) :=
  coordList.flatMap (fun rc =>
    if getCell board rc.1 rc.2 * player > 0 then
      ((get_piece_moves board rc.1 rc.2).1).map (fun p => (rc.1, rc.2, p))
    else [])

/-- `get_all_moves(board, player)`: forced captures — if any capture exists
anywhere for the side, only the captures are returned; otherwise the normal
moves. -/
def get_all_moves (board : Board) (player : Int) : List (Int × Int × List Coord) :=
  let captures := side_captures board player
  let normals := side_normals board player
  if captures.isEmpty then normals else captures

/-- The capture-clearing loop of `apply_move`: walk the path; every hop whose
row or column spans two squares clears the (floor-averaged) middle square;
returns the updated board together with the final position of the walk. -/
def clearJumped (nb : Board) (cr cc : Int) : List Coord → Board × Int × Int
  | [] => (nb, cr, cc)
  | (nr, nc) :: rest =>
    let nb := if (nr - cr).natAbs = 2 ∨ (nc - cc).natAbs = 2 then
        setCell nb ((nr + cr).fdiv 2) ((nc + cc).fdiv 2) 0
      else nb
    clearJumped nb nr nc rest

/-- `apply_move(board, (sr, sc, path))`: clone, lift the piece off the
origin, clear the middle square of every jumped hop, set the piece down on
the path's final square, and crown it there if that square is the far row
for its side. -/
def apply_move (board : Board) (move : Int × Int × List Coord) : Board :=
  let sr := move.1
  let sc := move.2.1
  let path := move.2.2
  let piece := getCell board sr sc
  let nb := setCell board sr sc 0
  let res := clearJumped nb sr sc path
  let nb := res.1
  let cr := res.2.1
  let cc := res.2.2
  let nb := setCell nb cr cc piece
  let nb := if getCell nb cr cc = 1 ∧ cr = 0 then setCell nb cr cc 2 else nb
  let nb := if getCell nb cr cc = -1 ∧ cr = 7 then setCell nb cr cc (-2) else nb
  nb

/-- `any(board[r][c] > 0 ...)`: does Red still have a piece? -/
def redAny (board : Board) : Bool :=
  coordList.any (fun rc => decide (getCell board rc.1 rc.2 > 0))

/-- Does Blue still have a piece? -/
def blueAny (board : Board) : Bool :=
  coordList.any (fun rc => decide (getCell board rc.1 rc.2 < 0))

/-- `is_terminal(board)`: some side has no pieces left. -/
def is_terminal (board : Board) : Bool :=
  !redAny board || !blueAny board

/-- `winner(board)`: the side that still has pieces when the other has none,
otherwise `None`. -/
def winner (board : Board) : Option String :=
  if redAny board ∧ ¬ blueAny board then some "Red"
  else if blueAny board ∧ ¬ redAny board then some "Blue"
  else none

/-! ### Basic facts about cells, bounds and well-formedness -/

theorem in_bounds_iff {r c : Int} :
    in_bounds r c = true ↔ 0 ≤ r ∧ r < 8 ∧ 0 ≤ c ∧ c < 8 := by
  simp [in_bounds]

theorem getD_set_split {α : Type} (l : List α) (i j : Nat) (a d : α) :
    (l.set i a).getD j d = if i = j ∧ i < l.length then a else l.getD j d := by
  rw [List.getD_eq_getElem?_getD, List.getElem?_set, List.getD_eq_getElem?_getD]
  by_cases h1 : i = j
  · subst h1
    by_cases h2 : i < l.length
    · simp [h2]
    · have : l[i]? = none := by
        rw [List.getElem?_eq_none_iff]; omega
      simp [h2, this]
  · simp [h1]

theorem getCell_setCell_self (b : Board) (hWF : BoardWF b) {r c : Int}
    (hin : in_bounds r c = true) (v : Int) :
    getCell (setCell b r c v) r c = v := by
  obtain ⟨hr0, hr8, hc0, hc8⟩ := in_bounds_iff.mp hin
  obtain ⟨hlen, hrow⟩ := hWF
  have hrlt : r.toNat < b.length := by omega
  have hclt : c.toNat < (b.getD r.toNat []).length := by
    rw [hrow r.toNat (by omega)]; omega
  simp only [getCell, setCell]
  rw [if_pos (show (0:Int) ≤ r ∧ (0:Int) ≤ c from ⟨hr0, hc0⟩)]
  rw [getD_set_split, if_pos ⟨rfl, hrlt⟩, getD_set_split, if_pos ⟨rfl, hclt⟩]

theorem getCell_setCell_ne (b : Board) {r c : Int} (x y : Int) (v : Int)
    (hin : in_bounds r c = true) (h : ¬(x = r ∧ y = c)) :
    getCell (setCell b r c v) x y = getCell b x y := by
  obtain ⟨hr0, hr8, hc0, hc8⟩ := in_bounds_iff.mp hin
  by_cases hg : 0 ≤ x ∧ 0 ≤ y
  · simp only [getCell, setCell]
    rw [if_pos hg, if_pos hg, getD_set_split]
    by_cases hx0 : r.toNat = x.toNat ∧ r.toNat < b.length
    · rw [if_pos hx0]
      have hxr : x = r := by omega
      have hyc : y ≠ c := fun hyc => h ⟨hxr, hyc⟩
      rw [getD_set_split, if_neg (fun hcy => absurd hcy.1 (by omega)), hx0.1]
    · rw [if_neg hx0]
  · simp only [getCell, if_neg hg]

theorem BoardWF_setCell (b : Board) (hWF : BoardWF b) (r c v : Int) :
    BoardWF (setCell b r c v) := by
  obtain ⟨hlen, hrow⟩ := hWF
  refine ⟨by simp [setCell, hlen], fun i hi => ?_⟩
  simp only [setCell]
  rw [getD_set_split]
  by_cases hcase : r.toNat = i ∧ r.toNat < b.length
  · rw [if_pos hcase, List.length_set, hcase.1]
    exact hrow i hi
  · rw [if_neg hcase]
    exact hrow i hi

theorem getCell_nonneg_guard {b : Board} {x y : Int} (h : ¬(0 ≤ x ∧ 0 ≤ y)) :
    getCell b x y = 0 := by
  simp [getCell, h]

theorem mem_coordList_iff {x y : Int} :
    (x, y) ∈ coordList ↔ in_bounds x y = true := by
  constructor
  · intro h
    rw [coordList, List.mem_flatMap] at h
    obtain ⟨r, hr, hmem⟩ := h
    rw [List.mem_map] at hmem
    obtain ⟨c, hc, heq⟩ := hmem
    rw [List.mem_range] at hr hc
    cases heq
    rw [in_bounds_iff]
    simp only [Int.ofNat_eq_natCast]
    omega
  · intro h
    obtain ⟨hx0, hx8, hy0, hy8⟩ := in_bounds_iff.mp h
    rw [coordList, List.mem_flatMap]
    refine ⟨x.toNat, by rw [List.mem_range]; omega, ?_⟩
    rw [List.mem_map]
    refine ⟨y.toNat, by rw [List.mem_range]; omega, ?_⟩
    have h1 : Int.ofNat x.toNat = x := by
      simp only [Int.ofNat_eq_natCast]; omega
    have h2 : Int.ofNat y.toNat = y := by
      simp only [Int.ofNat_eq_natCast]; omega
    rw [h1, h2]

theorem coordList_nodup : coordList.Nodup := by decide

theorem pieceCount_le (b : Board) : pieceCount b ≤ 64 := by
  have h : List.countP (fun rc => getCell b rc.1 rc.2 != 0) coordList ≤ coordList.length :=
    List.countP_le_length _
  simpa [coordList] using h

/-! ### The jump step: what it writes, and that it removes exactly one piece -/

theorem scanDirs_subset (pc : Int) :
    ∀ d ∈ scanDirs pc, d ∈ [((-1 : Int), (-1 : Int)), (-1, 1), (1, -1), (1, 1)] := by
  intro d hd
  unfold scanDirs at hd
  split at hd
  · exact hd
  · split at hd <;> simp only [List.mem_cons, List.not_mem_nil, or_false] at hd ⊢ <;> tauto

theorem scanDirs_units {pc : Int} {d : Coord} (h : d ∈ scanDirs pc) :
    d.1.natAbs = 1 ∧ d.2.natAbs = 1 := by
  have h4 := scanDirs_subset pc d h
  simp only [List.mem_cons, List.not_mem_nil, or_false] at h4
  rcases h4 with rfl | rfl | rfl | rfl <;> exact ⟨rfl, rfl⟩

theorem canJump_iff {bd : Board} {cr cc dr dc : Int} :
    canJump bd cr cc dr dc = true ↔
      in_bounds (cr + dr) (cc + dc) = true ∧
      in_bounds (cr + 2 * dr) (cc + 2 * dc) = true ∧
      getCell bd (cr + dr) (cc + dc) ≠ 0 ∧
      getCell bd (cr + dr) (cc + dc) * getCell bd cr cc < 0 ∧
      getCell bd (cr + 2 * dr) (cc + 2 * dc) = 0 := by
  simp only [canJump, Bool.and_eq_true, decide_eq_true_eq]
  tauto

/-- The value the scratch board holds on the landing square after one jump:
the moving piece, crowned if the landing row is its far row. -/
def stepVal (bd : Board) (cr cc dr : Int) : Int :=
  if getCell bd cr cc = 1 ∧ cr + 2 * dr = 0 then 2
  else if getCell bd cr cc = -1 ∧ cr + 2 * dr = 7 then -2
  else getCell bd cr cc

theorem stepVal_ne_zero {bd : Board} {cr cc dr : Int} (h : getCell bd cr cc ≠ 0) :
    stepVal bd cr cc dr ≠ 0 := by
  unfold stepVal
  split
  · decide
  · split
    · decide
    · exact h

theorem BoardWF_stepBoard (bd : Board) (hWF : BoardWF bd) (cr cc dr dc : Int) :
    BoardWF (stepBoard bd cr cc dr dc) := by
  simp only [stepBoard]
  have h1 := BoardWF_setCell bd hWF (cr + 2 * dr) (cc + 2 * dc) (getCell bd cr cc)
  have h2 := BoardWF_setCell _ h1 cr cc 0
  have h3 := BoardWF_setCell _ h2 (cr + dr) (cc + dc) 0
  split
  · split
    · exact BoardWF_setCell _ (BoardWF_setCell _ h3 _ _ _) _ _ _
    · exact BoardWF_setCell _ h3 _ _ _
  · split
    · exact BoardWF_setCell _ h3 _ _ _
    · exact h3

theorem getCell_stepBoard (bd : Board) (hWF : BoardWF bd) {cr cc dr dc : Int}
    (hin : in_bounds cr cc = true) (hd1 : dr.natAbs = 1) (hd2 : dc.natAbs = 1)
    (hj : canJump bd cr cc dr dc = true) (x y : Int) :
    getCell (stepBoard bd cr cc dr dc) x y =
      if x = cr + 2 * dr ∧ y = cc + 2 * dc then stepVal bd cr cc dr
      else if x = cr ∧ y = cc then 0
      else if x = cr + dr ∧ y = cc + dc then 0
      else getCell bd x y := by
  obtain ⟨hmb, hlb, hmne, hprod, hl0⟩ := canJump_iff.mp hj
  have hla : ¬(cr + 2 * dr = cr ∧ cc + 2 * dc = cc) := by omega
  have hlm : ¬(cr + 2 * dr = cr + dr ∧ cc + 2 * dc = cc + dc) := by omega
  have hma : ¬(cr + dr = cr ∧ cc + dc = cc) := by omega
  have hWF1 := BoardWF_setCell bd hWF (cr + 2 * dr) (cc + 2 * dc) (getCell bd cr cc)
  have hWF2 := BoardWF_setCell _ hWF1 cr cc 0
  simp only [stepBoard]
  set nb3 := setCell (setCell (setCell bd (cr + 2 * dr) (cc + 2 * dc) (getCell bd cr cc))
    cr cc 0) (cr + dr) (cc + dc) 0 with hnb3
  have hWF3 : BoardWF nb3 := BoardWF_setCell _ hWF2 (cr + dr) (cc + dc) 0
  have hval3 : getCell nb3 (cr + 2 * dr) (cc + 2 * dc) = getCell bd cr cc := by
    rw [hnb3, getCell_setCell_ne _ _ _ _ hmb (by omega),
      getCell_setCell_ne _ _ _ _ hin (by omega),
      getCell_setCell_self bd hWF hlb]
  have hbase : ∀ u v : Int, ¬(u = cr + 2 * dr ∧ v = cc + 2 * dc) →
      getCell nb3 u v =
        (if u = cr ∧ v = cc then 0
          else if u = cr + dr ∧ v = cc + dc then 0 else getCell bd u v) := by
    intro u v huv
    by_cases hxa : u = cr ∧ v = cc
    · obtain ⟨hx, hy⟩ := hxa
      subst hx; subst hy
      rw [if_pos ⟨rfl, rfl⟩, hnb3]
      rw [getCell_setCell_ne _ _ _ _ hmb (by omega)]
      exact getCell_setCell_self _ hWF1 hin _
    · rw [if_neg hxa]
      by_cases hxm : u = cr + dr ∧ v = cc + dc
      · obtain ⟨hx, hy⟩ := hxm
        subst hx; subst hy
        rw [if_pos ⟨rfl, rfl⟩, hnb3]
        exact getCell_setCell_self _ hWF2 hmb _
      · rw [if_neg hxm, hnb3]
        rw [getCell_setCell_ne _ _ _ _ hmb hxm,
          getCell_setCell_ne _ _ _ _ hin hxa,
          getCell_setCell_ne _ _ _ _ hlb huv]
  by_cases hxl : x = cr + 2 * dr ∧ y = cc + 2 * dc
  · obtain ⟨hx, hy⟩ := hxl
    subst hx; subst hy
    rw [if_pos (⟨rfl, rfl⟩ : cr + 2 * dr = cr + 2 * dr ∧ cc + 2 * dc = cc + 2 * dc)]
    by_cases hc1 : getCell bd cr cc = 1 ∧ cr + 2 * dr = 0
    · rw [if_pos (⟨by rw [hval3]; exact hc1.1, hc1.2⟩ :
        getCell nb3 (cr + 2 * dr) (cc + 2 * dc) = 1 ∧ cr + 2 * dr = 0)]
      have h24 := getCell_setCell_self _ hWF3 hlb (2 : Int)
      rw [if_neg (fun hcc => by rw [h24] at hcc; exact absurd hcc.1 (by decide) :
        ¬(getCell (setCell nb3 (cr + 2 * dr) (cc + 2 * dc) 2) (cr + 2 * dr) (cc + 2 * dc) = -1 ∧
          cr + 2 * dr = 7))]
      rw [h24]
      unfold stepVal
      rw [if_pos hc1]
    · rw [if_neg (fun hcc => hc1 ⟨by rw [← hval3]; exact hcc.1, hcc.2⟩ :
        ¬(getCell nb3 (cr + 2 * dr) (cc + 2 * dc) = 1 ∧ cr + 2 * dr = 0))]
      by_cases hc2 : getCell bd cr cc = -1 ∧ cr + 2 * dr = 7
      · rw [if_pos (⟨by rw [hval3]; exact hc2.1, hc2.2⟩ :
          getCell nb3 (cr + 2 * dr) (cc + 2 * dc) = -1 ∧ cr + 2 * dr = 7)]
        rw [getCell_setCell_self _ hWF3 hlb (-2 : Int)]
        unfold stepVal
        rw [if_neg hc1, if_pos hc2]
      · rw [if_neg (fun hcc => hc2 ⟨by rw [← hval3]; exact hcc.1, hcc.2⟩ :
          ¬(getCell nb3 (cr + 2 * dr) (cc + 2 * dc) = -1 ∧ cr + 2 * dr = 7))]
        rw [hval3]
        unfold stepVal
        rw [if_neg hc1, if_neg hc2]
  · rw [if_neg hxl]
    have hmain : getCell nb3 x y =
        (if x = cr ∧ y = cc then 0
          else if x = cr + dr ∧ y = cc + dc then 0 else getCell bd x y) := hbase x y hxl
    have promo_ne : ∀ (nb : Board) (P : Prop) (inst : Decidable P) (v : Int),
        getCell (@ite _ P inst (setCell nb (cr + 2 * dr) (cc + 2 * dc) v) nb) x y =
          getCell nb x y := by
      intro nb P inst v
      split
      · exact getCell_setCell_ne _ _ _ _ hlb hxl
      · rfl
    rw [promo_ne, promo_ne]
    exact hmain

theorem mem_extract {α : Type} [DecidableEq α] {a : α} {l : List α} (ha : a ∈ l)
    (hnd : l.Nodup) :
    ∃ t, l.Perm (a :: t) ∧ t.Nodup ∧ ∀ x, x ∈ t ↔ x ∈ l ∧ x ≠ a := by
  induction l with
  | nil => cases ha
  | cons y rest ih =>
    rcases List.mem_cons.mp ha with rfl | hmem
    · refine ⟨rest, List.Perm.refl _, (List.nodup_cons.mp hnd).2, fun x => ?_⟩
      have hnot := (List.nodup_cons.mp hnd).1
      constructor
      · intro hx
        exact ⟨List.mem_cons_of_mem _ hx, fun he => hnot (he ▸ hx)⟩
      · rintro ⟨hx, hne⟩
        rcases List.mem_cons.mp hx with rfl | h2
        · exact absurd rfl hne
        · exact h2
    · obtain ⟨t, hp, hndt, hiff⟩ := ih hmem (List.nodup_cons.mp hnd).2
      have hya : y ≠ a := fun he => (List.nodup_cons.mp hnd).1 (he ▸ hmem)
      refine ⟨y :: t, ?_, ?_, fun x => ?_⟩
      · exact (List.Perm.cons y hp).trans (List.Perm.swap a y t)
      · rw [List.nodup_cons]
        refine ⟨fun hyt => ?_, hndt⟩
        exact (List.nodup_cons.mp hnd).1 ((hiff y).mp hyt).1
      · constructor
        · intro hx
          rcases List.mem_cons.mp hx with rfl | hxt
          · exact ⟨List.mem_cons_self _ _, hya⟩
          · obtain ⟨h1, h2⟩ := (hiff x).mp hxt
            exact ⟨List.mem_cons_of_mem _ h1, h2⟩
        · rintro ⟨hx, hne⟩
          rcases List.mem_cons.mp hx with rfl | h2
          · exact List.mem_cons_self _ _
          · exact List.mem_cons_of_mem _ ((hiff x).mpr ⟨h2, hne⟩)

theorem pieceCount_stepBoard (bd : Board) (hWF : BoardWF bd) {cr cc dr dc : Int}
    (hin : in_bounds cr cc = true) (hd1 : dr.natAbs = 1) (hd2 : dc.natAbs = 1)
    (hj : canJump bd cr cc dr dc = true) :
    pieceCount (stepBoard bd cr cc dr dc) + 1 = pieceCount bd := by
  obtain ⟨hmb, hlb, hmne, hprod, hl0⟩ := canJump_iff.mp hj
  have hpc : getCell bd cr cc ≠ 0 := by
    intro h0
    rw [h0, mul_zero] at hprod
    exact absurd hprod (by omega)
  have ha : ((cr, cc) : Coord) ∈ coordList := mem_coordList_iff.mpr hin
  have hm : ((cr + dr, cc + dc) : Coord) ∈ coordList := mem_coordList_iff.mpr hmb
  have hl : ((cr + 2 * dr, cc + 2 * dc) : Coord) ∈ coordList := mem_coordList_iff.mpr hlb
  have ham : ((cr + dr, cc + dc) : Coord) ≠ (cr, cc) := by
    intro h; rw [Prod.mk.injEq] at h; omega
  have hal : ((cr + 2 * dr, cc + 2 * dc) : Coord) ≠ (cr, cc) := by
    intro h; rw [Prod.mk.injEq] at h; omega
  have hml : ((cr + 2 * dr, cc + 2 * dc) : Coord) ≠ (cr + dr, cc + dc) := by
    intro h; rw [Prod.mk.injEq] at h; omega
  obtain ⟨t1, hp1, hnd1, hiff1⟩ := mem_extract ha coordList_nodup
  have hm1 : ((cr + dr, cc + dc) : Coord) ∈ t1 := (hiff1 _).mpr ⟨hm, ham⟩
  obtain ⟨t2, hp2, hnd2, hiff2⟩ := mem_extract hm1 hnd1
  have hl2 : ((cr + 2 * dr, cc + 2 * dc) : Coord) ∈ t2 :=
    (hiff2 _).mpr ⟨(hiff1 _).mpr ⟨hl, hal⟩, hml⟩
  obtain ⟨t3, hp3, hnd3, hiff3⟩ := mem_extract hl2 hnd2
  have hperm : coordList.Perm ((cr, cc) :: (cr + dr, cc + dc) ::
      (cr + 2 * dr, cc + 2 * dc) :: t3) :=
    hp1.trans (List.Perm.cons _ (hp2.trans (List.Perm.cons _ hp3)))
  have hT : ∀ x ∈ t3, getCell (stepBoard bd cr cc dr dc) x.1 x.2 = getCell bd x.1 x.2 := by
    intro x hx
    obtain ⟨hx2, hxl⟩ := (hiff3 x).mp hx
    obtain ⟨hx1, hxm⟩ := (hiff2 x).mp hx2
    obtain ⟨_, hxa⟩ := (hiff1 x).mp hx1
    rw [getCell_stepBoard bd hWF hin hd1 hd2 hj]
    rw [if_neg (fun hh => hxl (Prod.ext hh.1 hh.2)),
      if_neg (fun hh => hxa (Prod.ext hh.1 hh.2)),
      if_neg (fun hh => hxm (Prod.ext hh.1 hh.2))]
  have hcount := fun (f : Coord → Bool) => List.Perm.countP_eq f hperm
  rw [pieceCount, pieceCount, hcount, hcount]
  rw [List.countP_cons, List.countP_cons, List.countP_cons,
    List.countP_cons, List.countP_cons, List.countP_cons]
  have hTcong : List.countP (fun rc => getCell (stepBoard bd cr cc dr dc) rc.1 rc.2 != 0) t3
      = List.countP (fun rc => getCell bd rc.1 rc.2 != 0) t3 := by
    apply List.countP_congr
    intro x hx
    rw [hT x hx]
  rw [hTcong]
  have hstep := getCell_stepBoard bd hWF hin hd1 hd2 hj
  have hva : getCell (stepBoard bd cr cc dr dc) cr cc = 0 := by
    rw [hstep]
    rw [if_neg (by omega), if_pos ⟨rfl, rfl⟩]
  have hvm : getCell (stepBoard bd cr cc dr dc) (cr + dr) (cc + dc) = 0 := by
    rw [hstep]
    rw [if_neg (by omega), if_neg (by omega), if_pos ⟨rfl, rfl⟩]
  have hvl : getCell (stepBoard bd cr cc dr dc) (cr + 2 * dr) (cc + 2 * dc) =
      stepVal bd cr cc dr := by
    rw [hstep, if_pos ⟨rfl, rfl⟩]
  simp only [hva, hvm, hvl, hl0]
  have h1 : ((0 : Int) != 0) = false := by decide
  have h2 : (getCell bd cr cc != 0) = true := by
    simpa using hpc
  have h3 : (getCell bd (cr + dr) (cc + dc) != 0) = true := by
    simpa using hmne
  have h4 : (stepVal bd cr cc dr != 0) = true := by
    simpa using stepVal_ne_zero hpc
  rw [h1, h2, h3, h4]
  simp

/-! ### Capture chains: the specification the search satisfies -/

/-- One valid jump hop of the capture search: the landing square is two
diagonal steps away in one of the scan directions of the piece standing on
the current scratch board, and the jump test holds. -/
def validHop (bd : Board) (cr cc lr lc : Int) : Bool :=
  (scanDirs (getCell bd cr cc)).any (fun d =>
    decide (lr = cr + 2 * d.1) && decide (lc = cc + 2 * d.2) && canJump bd cr cc d.1 d.2)

/-- The scratch board after hopping to the given landing square. -/
def chainStep (bd : Board) (cr cc lr lc : Int) : Board :=
  stepBoard bd cr cc ((lr - cr).fdiv 2) ((lc - cc).fdiv 2)

/-- Each hop of the path is a valid jump on the successive scratch boards. -/
def isChain : Board → Int → Int → List Coord → Bool
  | _, _, _, [] => true
  | bd, cr, cc, (lr, lc) :: rest =>
    validHop bd cr cc lr lc && isChain (chainStep bd cr cc lr lc) lr lc rest

/-- The scratch board and position after running a whole chain. -/
def runState : Board → Int → Int → List Coord → Board × Int × Int
  | bd, cr, cc, [] => (bd, cr, cc)
  | bd, cr, cc, (lr, lc) :: rest => runState (chainStep bd cr cc lr lc) lr lc rest

/-- Is some jump available for the piece standing at `(cr, cc)`? -/
def hasJump (bd : Board) (cr cc : Int) : Bool :=
  (scanDirs (getCell bd cr cc)).any (fun d => canJump bd cr cc d.1 d.2)

/-- A maximal capture chain: every hop is a valid jump and no further jump
is available from the final scratch position. -/
def maximalChain (bd : Board) (r c : Int) (p : List Coord) : Bool :=
  isChain bd r c p &&
    !hasJump (runState bd r c p).1 (runState bd r c p).2.1 (runState bd r c p).2.2

theorem validHop_iff {bd : Board} {cr cc lr lc : Int} :
    validHop bd cr cc lr lc = true ↔
      ∃ d ∈ scanDirs (getCell bd cr cc),
        lr = cr + 2 * d.1 ∧ lc = cc + 2 * d.2 ∧ canJump bd cr cc d.1 d.2 = true := by
  rw [validHop, List.any_eq_true]
  constructor
  · rintro ⟨d, hd, hcond⟩
    simp only [Bool.and_eq_true, decide_eq_true_eq] at hcond
    exact ⟨d, hd, hcond.1.1, hcond.1.2, hcond.2⟩
  · rintro ⟨d, hd, h1, h2, h3⟩
    refine ⟨d, hd, ?_⟩
    simp only [Bool.and_eq_true, decide_eq_true_eq]
    exact ⟨⟨h1, h2⟩, h3⟩

theorem hasJump_true_iff {bd : Board} {cr cc : Int} :
    hasJump bd cr cc = true ↔
      (scanDirs (getCell bd cr cc)).filter (fun d => canJump bd cr cc d.1 d.2) ≠ [] := by
  rw [hasJump, List.any_eq_true]
  constructor
  · rintro ⟨d, hd, hc⟩ hnil
    rw [List.filter_eq_nil_iff] at hnil
    exact hnil d hd hc
  · intro hne
    obtain ⟨d, hd⟩ := List.exists_mem_of_ne_nil _ hne
    obtain ⟨hmem, hcj⟩ := List.mem_filter.mp hd
    exact ⟨d, hmem, hcj⟩

theorem chainStep_eq_stepBoard {bd : Board} {cr cc : Int} {d : Coord}
    (h1 : d.1.natAbs = 1) (h2 : d.2.natAbs = 1) :
    chainStep bd cr cc (cr + 2 * d.1) (cc + 2 * d.2) = stepBoard bd cr cc d.1 d.2 := by
  unfold chainStep
  have e1 : cr + 2 * d.1 - cr = 2 * d.1 := by ring
  have e2 : cc + 2 * d.2 - cc = 2 * d.2 := by ring
  rw [e1, e2, Int.mul_fdiv_cancel_left d.1 (by decide), Int.mul_fdiv_cancel_left d.2 (by decide)]

theorem dfs_mem (fuel : Nat) :
    ∀ (bd : Board) (cr cc : Int) (path : List Coord) (visited : List (Coord × Coord))
      (p : List Coord), BoardWF bd → in_bounds cr cc = true → pieceCount bd < fuel →
      (p ∈ dfs fuel bd cr cc path visited ↔
        ∃ q, p = path ++ q ∧ isChain bd cr cc q = true ∧
          hasJump (runState bd cr cc q).1 (runState bd cr cc q).2.1
            (runState bd cr cc q).2.2 = false ∧ path ++ q ≠ []) := by
  induction fuel with
  | zero =>
    intro bd cr cc path visited p hWF hin hfuel
    omega
  | succ n ih =>
    intro bd cr cc path visited p hWF hin hfuel
    simp only [dfs]
    by_cases hjs : ((scanDirs (getCell bd cr cc)).filter
        (fun d => canJump bd cr cc d.1 d.2)).isEmpty = true
    · rw [if_pos hjs]
      have hnj : hasJump bd cr cc = false := by
        rw [List.isEmpty_iff] at hjs
        rcases Bool.eq_false_or_eq_true (hasJump bd cr cc) with h | h
        · exact absurd hjs (hasJump_true_iff.mp h)
        · exact h
      constructor
      · intro hp
        by_cases hpe : path.isEmpty = true
        · rw [if_pos hpe] at hp
          cases hp
        · rw [if_neg hpe] at hp
          have hppath : p = path := List.mem_singleton.mp hp
          refine ⟨[], by simpa using hppath, rfl, ?_, ?_⟩
          · simpa [runState] using hnj
          · simpa using fun he => hpe (by rw [he]; rfl)
      · rintro ⟨q, hpq, hchain, hmax, hne⟩
        have hq0 : q = [] := by
          cases q with
          | nil => rfl
          | cons hd tl =>
            exfalso
            obtain ⟨lr, lc⟩ := hd
            simp only [isChain, Bool.and_eq_true] at hchain
            obtain ⟨d, hdmem, h1, h2, h3⟩ := validHop_iff.mp hchain.1
            have : hasJump bd cr cc = true := by
              rw [hasJump, List.any_eq_true]
              exact ⟨d, hdmem, h3⟩
            rw [hnj] at this
            cases this
        subst hq0
        rw [List.append_nil] at hpq hne
        rw [if_neg (by simpa using fun he => hne he)]
        simpa using hpq
    · rw [if_neg hjs]
      have hmem_flat : p ∈ ((scanDirs (getCell bd cr cc)).filter
          (fun d => canJump bd cr cc d.1 d.2)).flatMap (fun d =>
            dfs n (stepBoard bd cr cc d.1 d.2) (cr + 2 * d.1) (cc + 2 * d.2)
              (path ++ [(cr + 2 * d.1, cc + 2 * d.2)])
              (((cr + d.1, cc + d.2), (cr + 2 * d.1, cc + 2 * d.2)) :: visited)) ↔
          ∃ d ∈ (scanDirs (getCell bd cr cc)).filter (fun d => canJump bd cr cc d.1 d.2),
            p ∈ dfs n (stepBoard bd cr cc d.1 d.2) (cr + 2 * d.1) (cc + 2 * d.2)
              (path ++ [(cr + 2 * d.1, cc + 2 * d.2)])
              (((cr + d.1, cc + d.2), (cr + 2 * d.1, cc + 2 * d.2)) :: visited) :=
        List.mem_flatMap
      rw [hmem_flat]
      constructor
      · rintro ⟨d, hd, hp⟩
        obtain ⟨hdmem, hcj⟩ := List.mem_filter.mp hd
        obtain ⟨hu1, hu2⟩ := scanDirs_units hdmem
        obtain ⟨hmb, hlb, -, -, -⟩ := canJump_iff.mp hcj
        have hWF2 := BoardWF_stepBoard bd hWF cr cc d.1 d.2
        have hcnt := pieceCount_stepBoard bd hWF hin hu1 hu2 hcj
        have hih := (ih (stepBoard bd cr cc d.1 d.2) (cr + 2 * d.1) (cc + 2 * d.2)
          (path ++ [(cr + 2 * d.1, cc + 2 * d.2)])
          (((cr + d.1, cc + d.2), (cr + 2 * d.1, cc + 2 * d.2)) :: visited) p
          hWF2 hlb (by omega)).mp hp
        obtain ⟨q, hpq, hchain, hmax, -⟩ := hih
        refine ⟨(cr + 2 * d.1, cc + 2 * d.2) :: q, ?_, ?_, ?_, by simp⟩
        · rw [hpq, List.append_assoc]
          rfl
        · simp only [isChain, Bool.and_eq_true]
          constructor
          · exact validHop_iff.mpr ⟨d, hdmem, rfl, rfl, hcj⟩
          · rw [chainStep_eq_stepBoard hu1 hu2]
            exact hchain
        · simp only [runState]
          rw [chainStep_eq_stepBoard hu1 hu2]
          exact hmax
      · rintro ⟨q, hpq, hchain, hmax, hne⟩
        cases q with
        | nil =>
          exfalso
          simp only [runState] at hmax
          have : hasJump bd cr cc = true :=
            hasJump_true_iff.mpr (by
              intro hnil
              rw [← List.isEmpty_iff] at hnil
              exact hjs hnil)
          rw [hmax] at this
          cases this
        | cons hd tl =>
          obtain ⟨lr, lc⟩ := hd
          simp only [isChain, Bool.and_eq_true] at hchain
          obtain ⟨hhop, hrest⟩ := hchain
          obtain ⟨d, hdmem, h1, h2, hcj⟩ := validHop_iff.mp hhop
          obtain ⟨hu1, hu2⟩ := scanDirs_units hdmem
          obtain ⟨hmb, hlb, -, -, -⟩ := canJump_iff.mp hcj
          have hWF2 := BoardWF_stepBoard bd hWF cr cc d.1 d.2
          have hcnt := pieceCount_stepBoard bd hWF hin hu1 hu2 hcj
          refine ⟨d, List.mem_filter.mpr ⟨hdmem, hcj⟩, ?_⟩
          refine (ih (stepBoard bd cr cc d.1 d.2) (cr + 2 * d.1) (cc + 2 * d.2)
            (path ++ [(cr + 2 * d.1, cc + 2 * d.2)])
            (((cr + d.1, cc + d.2), (cr + 2 * d.1, cc + 2 * d.2)) :: visited) p
            hWF2 hlb (by omega)).mpr ⟨tl, ?_, ?_, ?_, by simp⟩
          · rw [hpq, List.append_assoc, h1, h2]
            rfl
          · subst h1; subst h2
            rw [← chainStep_eq_stepBoard hu1 hu2]
            exact hrest
          · subst h1; subst h2
            rw [← chainStep_eq_stepBoard hu1 hu2]
            simpa [runState] using hmax

/-! ### Concrete boards used by counterexamples and witnesses -/

/-- A Red man at (2,1) with Blue men at (1,2) and (1,4): its only capture
chain jumps to row 0, is crowned there by the search's scratch board, and
continues with a backward jump to (2,5). -/
def promoBoard : Board :=
  [[0, 0, 0, 0, 0, 0, 0, 0],
   [0, 0, -1, 0, -1, 0, 0, 0],
   [0, 1, 0, 0, 0, 0, 0, 0],
   [0, 0, 0, 0, 0, 0, 0, 0],
   [0, 0, 0, 0, 0, 0, 0, 0],
   [0, 0, 0, 0, 0, 0, 0, 0],
   [0, 0, 0, 0, 0, 0, 0, 0],
   [0, 0, 0, 0, 0, 0, 0, 0]]

/-- A Red king at (2,2) surrounded by four Blue men on the diamond
(1,3), (1,5), (3,3), (3,5): it can capture all four in a cycle and land back
on its own origin square. -/
def diamondBoard : Board :=
  [[0, 0, 0, 0, 0, 0, 0, 0],
   [0, 0, 0, -1, 0, -1, 0, 0],
   [0, 0, 2, 0, 0, 0, 0, 0],
   [0, 0, 0, -1, 0, -1, 0, 0],
   [0, 0, 0, 0, 0, 0, 0, 0],
   [0, 0, 0, 0, 0, 0, 0, 0],
   [0, 0, 0, 0, 0, 0, 0, 0],
   [0, 0, 0, 0, 0, 0, 0, 0]]

/-! ### C4: the capture list holds exactly the maximal chains -/

theorem get_piece_moves_snd_eq {b : Board} {r c : Int} (h : getCell b r c ≠ 0) :
    (get_piece_moves b r c).2 = dfs 65 b r c [] [] := by
  simp [get_piece_moves, h]

theorem get_piece_moves_snd_nil {b : Board} {r c : Int} (h : getCell b r c = 0) :
    (get_piece_moves b r c).2 = [] := by
  simp [get_piece_moves, h]

theorem mem_captures_iff {b : Board} {r c : Int} (hWF : BoardWF b)
    (hin : in_bounds r c = true) (p : List Coord) :
    p ∈ (get_piece_moves b r c).2 ↔ p ≠ [] ∧ maximalChain b r c p = true := by
  by_cases h0 : getCell b r c = 0
  · rw [get_piece_moves_snd_nil h0]
    simp only [List.not_mem_nil, false_iff]
    rintro ⟨hne, hmax⟩
    rw [maximalChain, Bool.and_eq_true] at hmax
    cases p with
    | nil => exact hne rfl
    | cons hd tl =>
      obtain ⟨lr, lc⟩ := hd
      obtain ⟨hchain, -⟩ := hmax
      simp only [isChain, Bool.and_eq_true] at hchain
      obtain ⟨d, -, -, -, hcj⟩ := validHop_iff.mp hchain.1
      obtain ⟨-, -, -, hprod, -⟩ := canJump_iff.mp hcj
      rw [h0, mul_zero] at hprod
      exact absurd hprod (by omega)
  · rw [get_piece_moves_snd_eq h0]
    rw [dfs_mem 65 b r c [] [] p hWF hin (by have := pieceCount_le b; omega)]
    constructor
    · rintro ⟨q, hpq, hchain, hnj, hne⟩
      rw [List.nil_append] at hpq hne
      subst hpq
      refine ⟨hne, ?_⟩
      rw [maximalChain, Bool.and_eq_true]
      exact ⟨hchain, by simp [hnj]⟩
    · rintro ⟨hne, hmax⟩
      rw [maximalChain, Bool.and_eq_true] at hmax
      obtain ⟨hchain, hnj⟩ := hmax
      exact ⟨p, by simp, hchain, by simpa using hnj, by simpa using hne⟩

/-- C4: for every board and occupied square, the capture list returned by
`get_piece_moves` contains exactly the maximal capture chains reachable by
the depth-first search: a path is returned iff it is non-empty, every hop is
a valid jump on the successive scratch boards, and the branch it ends on has
no further jump available — so alternative chains of different lengths from
distinct branch points are all returned, not only the longest. -/
theorem captures_exactly_maximal_chains (b : Board) (r c : Int)
    (hWF : BoardWF b) (hin : in_bounds r c = true) :
    ∀ p, p ∈ (get_piece_moves b r c).2 ↔ p ≠ [] ∧ maximalChain b r c p = true :=
  fun p => mem_captures_iff hWF hin p

theorem captures_exactly_maximal_chains_witness :
    [((0 : Int), (3 : Int)), ((2 : Int), (5 : Int))] ∈ (get_piece_moves promoBoard 2 1).2 :=
  (captures_exactly_maximal_chains promoBoard 2 1 (by decide) (by decide)
    [((0 : Int), (3 : Int)), ((2 : Int), (5 : Int))]).mpr ⟨by decide, by decide⟩

/-! ### C1: side-wide forced captures -/

theorem mem_side_captures_iff {b : Board} {pl : Int} {mv : Int × Int × List Coord} :
    mv ∈ side_captures b pl ↔ in_bounds mv.1 mv.2.1 = true ∧
      getCell b mv.1 mv.2.1 * pl > 0 ∧ mv.2.2 ∈ (get_piece_moves b mv.1 mv.2.1).2 := by
  rw [side_captures, List.mem_flatMap]
  constructor
  · rintro ⟨rc, hrc, hmem⟩
    by_cases hc : getCell b rc.1 rc.2 * pl > 0
    · rw [if_pos hc] at hmem
      obtain ⟨p, hp, heq⟩ := List.mem_map.mp hmem
      subst heq
      refine ⟨?_, hc, hp⟩
      have : (rc.1, rc.2) ∈ coordList := by
        rw [Prod.mk.eta]
        exact hrc
      exact mem_coordList_iff.mp this
    · rw [if_neg hc] at hmem
      cases hmem
  · rintro ⟨hin, hown, hmem⟩
    refine ⟨(mv.1, mv.2.1), mem_coordList_iff.mpr hin, ?_⟩
    rw [if_pos hown]
    exact List.mem_map.mpr ⟨mv.2.2, hmem, rfl⟩

theorem mem_side_normals_iff {b : Board} {pl : Int} {mv : Int × Int × List Coord} :
    mv ∈ side_normals b pl ↔ in_bounds mv.1 mv.2.1 = true ∧
      getCell b mv.1 mv.2.1 * pl > 0 ∧ mv.2.2 ∈ (get_piece_moves b mv.1 mv.2.1).1 := by
  rw [side_normals, List.mem_flatMap]
  constructor
  · rintro ⟨rc, hrc, hmem⟩
    by_cases hc : getCell b rc.1 rc.2 * pl > 0
    · rw [if_pos hc] at hmem
      obtain ⟨p, hp, heq⟩ := List.mem_map.mp hmem
      subst heq
      refine ⟨?_, hc, hp⟩
      have : (rc.1, rc.2) ∈ coordList := by
        rw [Prod.mk.eta]
        exact hrc
      exact mem_coordList_iff.mp this
    · rw [if_neg hc] at hmem
      cases hmem
  · rintro ⟨hin, hown, hmem⟩
    refine ⟨(mv.1, mv.2.1), mem_coordList_iff.mpr hin, ?_⟩
    rw [if_pos hown]
    exact List.mem_map.mpr ⟨mv.2.2, hmem, rfl⟩

theorem mem_normals_iff {b : Board} {r c : Int} {p : List Coord} :
    p ∈ (get_piece_moves b r c).1 ↔ getCell b r c ≠ 0 ∧
      ∃ d ∈ scanDirs (getCell b r c), p = [(r + d.1, c + d.2)] ∧
        in_bounds (r + d.1) (c + d.2) = true ∧ getCell b (r + d.1) (c + d.2) = 0 := by
  by_cases h0 : getCell b r c = 0
  · simp [get_piece_moves, h0]
  · have h1 : (get_piece_moves b r c).1 = (scanDirs (getCell b r c)).filterMap (fun d =>
        if in_bounds (r + d.1) (c + d.2) && decide (getCell b (r + d.1) (c + d.2) = 0)
        then some [(r + d.1, c + d.2)] else none) := by
      simp [get_piece_moves, scanDirs, h0]
    rw [h1, List.mem_filterMap]
    constructor
    · rintro ⟨d, hd, hfd⟩
      by_cases hcond : (in_bounds (r + d.1) (c + d.2) &&
          decide (getCell b (r + d.1) (c + d.2) = 0)) = true
      · rw [if_pos hcond] at hfd
        obtain ⟨hc1, hc2⟩ := Bool.and_eq_true_iff.mp hcond
        exact ⟨h0, d, hd, (Option.some_injective _ hfd).symm, hc1, of_decide_eq_true hc2⟩
      · rw [if_neg hcond] at hfd
        cases hfd
    · rintro ⟨-, d, hd, hp, hc1, hc2⟩
      refine ⟨d, hd, ?_⟩
      rw [if_pos (by simp [hc1, hc2])]
      rw [hp]

theorem captures_not_normal {b : Board} {r c : Int} {p : List Coord}
    (hWF : BoardWF b) (hin : in_bounds r c = true)
    (hcap : p ∈ (get_piece_moves b r c).2) : p ∉ (get_piece_moves b r c).1 := by
  intro hnm
  obtain ⟨hne, hmax⟩ := (mem_captures_iff hWF hin p).mp hcap
  obtain ⟨-, d, hd, hp, -, -⟩ := mem_normals_iff.mp hnm
  rw [maximalChain, Bool.and_eq_true] at hmax
  obtain ⟨hchain, -⟩ := hmax
  subst hp
  simp only [isChain, Bool.and_eq_true] at hchain
  obtain ⟨e, he, h1, h2, -⟩ := validHop_iff.mp hchain.1
  obtain ⟨hd1, hd2⟩ := scanDirs_units hd
  obtain ⟨he1, he2⟩ := scanDirs_units he
  omega

/-- C1: for every board and side, if any piece of that side has a capture
move, `get_all_moves` returns exactly the side's capture moves (each returned
move is a capture of its piece and is not one of its normal moves — zero
normal moves are offered); if no capture exists anywhere for that side, it
returns exactly the union of normal moves over the side's pieces. -/
theorem get_all_moves_forced_capture (b : Board) (pl : Int) (hWF : BoardWF b) :
    ((∃ r c p, in_bounds r c = true ∧ getCell b r c * pl > 0 ∧
        p ∈ (get_piece_moves b r c).2) →
      get_all_moves b pl = side_captures b pl ∧
      ∀ mv ∈ get_all_moves b pl,
        mv.2.2 ∈ (get_piece_moves b mv.1 mv.2.1).2 ∧
        mv.2.2 ∉ (get_piece_moves b mv.1 mv.2.1).1) ∧
    ((¬ ∃ r c p, in_bounds r c = true ∧ getCell b r c * pl > 0 ∧
        p ∈ (get_piece_moves b r c).2) →
      get_all_moves b pl = side_normals b pl ∧
      ∀ mv ∈ get_all_moves b pl,
        mv.2.2 ∈ (get_piece_moves b mv.1 mv.2.1).1) := by
  have hiff : side_captures b pl ≠ [] ↔
      ∃ r c p, in_bounds r c = true ∧ getCell b r c * pl > 0 ∧
        p ∈ (get_piece_moves b r c).2 := by
    constructor
    · intro hne
      obtain ⟨mv, hmv⟩ := List.exists_mem_of_ne_nil _ hne
      obtain ⟨hin, hown, hmem⟩ := mem_side_captures_iff.mp hmv
      exact ⟨mv.1, mv.2.1, mv.2.2, hin, hown, hmem⟩
    · rintro ⟨r, c, p, hin, hown, hmem⟩ hnil
      have : (r, c, p) ∈ side_captures b pl := mem_side_captures_iff.mpr ⟨hin, hown, hmem⟩
      rw [hnil] at this
      cases this
  constructor
  · intro hex
    have hne := hiff.mpr hex
    have hget : get_all_moves b pl = side_captures b pl := by
      rw [get_all_moves, if_neg (by simpa [List.isEmpty_iff] using hne)]
    refine ⟨hget, fun mv hmv => ?_⟩
    rw [hget] at hmv
    obtain ⟨hin, hown, hmem⟩ := mem_side_captures_iff.mp hmv
    exact ⟨hmem, captures_not_normal hWF hin hmem⟩
  · intro hnex
    have hnil : side_captures b pl = [] := by
      by_contra hne
      exact hnex (hiff.mp hne)
    have hget : get_all_moves b pl = side_normals b pl := by
      rw [get_all_moves, if_pos (by simpa [List.isEmpty_iff] using hnil)]
    refine ⟨hget, fun mv hmv => ?_⟩
    rw [hget] at hmv
    exact (mem_side_normals_iff.mp hmv).2.2

theorem get_all_moves_forced_capture_witness :
    get_all_moves promoBoard 1 = side_captures promoBoard 1 ∧
      get_all_moves initial_board 1 = side_normals initial_board 1 :=
  ⟨((get_all_moves_forced_capture promoBoard 1 (by decide)).1
      ⟨2, 1, [((0 : Int), (3 : Int)), ((2 : Int), (5 : Int))],
        by decide, by decide, by decide⟩).1,
    ((get_all_moves_forced_capture initial_board 1 (by decide)).2 (by
      rintro ⟨r, c, p, hin, hown, hmem⟩
      have hm : (r, c, p) ∈ side_captures initial_board 1 :=
        mem_side_captures_iff.mpr ⟨hin, hown, hmem⟩
      rw [show side_captures initial_board 1 = ([] : List (Int × Int × List Coord))
        from by decide] at hm
      cases hm)).1⟩

/-! ### C5: what apply_move writes -/

/-- The middle squares `apply_move` clears: one for every hop of the path
whose row or column distance is exactly two. -/
def midsFrom (cr cc : Int) : List Coord → List Coord
  | [] => []
  | (nr, nc) :: rest =>
    (if (nr - cr).natAbs = 2 ∨ (nc - cc).natAbs = 2 then
        [((nr + cr).fdiv 2, (nc + cc).fdiv 2)]
      else []) ++ midsFrom nr nc rest

/-- The final square of a walk along the path (the origin for an empty path). -/
def lastPos (sr sc : Int) : List Coord → Coord
  | [] => (sr, sc)
  | (nr, nc) :: rest => lastPos nr nc rest

/-- The value `apply_move` leaves on the final landing square: the moving
piece, crowned if that square is the far row for its side. -/
def applyVal (piece lr : Int) : Int :=
  if piece = 1 ∧ lr = 0 then 2 else if piece = -1 ∧ lr = 7 then -2 else piece

theorem clearJumped_snd (nb : Board) (cr cc : Int) (path : List Coord) :
    (clearJumped nb cr cc path).2 = lastPos cr cc path := by
  induction path generalizing nb cr cc with
  | nil => rfl
  | cons hd rest ih =>
    obtain ⟨nr, nc⟩ := hd
    simp only [clearJumped, lastPos]
    exact ih _ nr nc

theorem BoardWF_clearJumped (nb : Board) (hWF : BoardWF nb) (cr cc : Int)
    (path : List Coord) : BoardWF (clearJumped nb cr cc path).1 := by
  induction path generalizing nb cr cc with
  | nil => exact hWF
  | cons hd rest ih =>
    obtain ⟨nr, nc⟩ := hd
    simp only [clearJumped]
    split
    · exact ih _ (BoardWF_setCell _ hWF _ _ _) nr nc
    · exact ih _ hWF nr nc

theorem getCell_clearJumped (nb : Board) (hWF : BoardWF nb) (cr cc : Int)
    (path : List Coord)
    (hmids : ∀ m ∈ midsFrom cr cc path, in_bounds m.1 m.2 = true) (x y : Int) :
    getCell (clearJumped nb cr cc path).1 x y =
      if (x, y) ∈ midsFrom cr cc path then 0 else getCell nb x y := by
  induction path generalizing nb cr cc with
  | nil =>
    simp [clearJumped, midsFrom]
  | cons hd rest ih =>
    obtain ⟨nr, nc⟩ := hd
    simp only [clearJumped, midsFrom] at hmids ⊢
    by_cases hdist : (nr - cr).natAbs = 2 ∨ (nc - cc).natAbs = 2
    · rw [if_pos hdist] at hmids
      simp only [if_pos hdist]
      have hmid_in : in_bounds ((nr + cr).fdiv 2) ((nc + cc).fdiv 2) = true :=
        hmids ((nr + cr).fdiv 2, (nc + cc).fdiv 2) (by simp)
      have hrest : ∀ m ∈ midsFrom nr nc rest, in_bounds m.1 m.2 = true := by
        intro m hm
        exact hmids m (by simp [hm])
      rw [ih _ (BoardWF_setCell _ hWF _ _ _) nr nc hrest]
      by_cases hxr : (x, y) ∈ midsFrom nr nc rest
      · rw [if_pos hxr, if_pos (by simp [hxr])]
      · rw [if_neg hxr]
        by_cases hxm : (x, y) = ((nr + cr).fdiv 2, (nc + cc).fdiv 2)
        · rw [if_pos (by simp [hxm])]
          obtain ⟨hx, hy⟩ := Prod.mk.injEq .. |>.mp hxm
          subst hx; subst hy
          exact getCell_setCell_self _ hWF hmid_in 0
        · rw [if_neg (by
            simp only [List.singleton_append, List.mem_cons]
            rintro (h | h)
            · exact hxm h
            · exact hxr h)]
          exact getCell_setCell_ne _ _ _ _ hmid_in
            (fun hh => hxm (Prod.ext hh.1 hh.2))
    · rw [if_neg hdist] at hmids
      simp only [if_neg hdist]
      simp only [List.nil_append] at hmids ⊢
      exact ih _ hWF nr nc hmids

theorem getCell_apply_move (b : Board) (hWF : BoardWF b) (sr sc : Int)
    (path : List Coord) (hin : in_bounds sr sc = true)
    (hlast : in_bounds (lastPos sr sc path).1 (lastPos sr sc path).2 = true)
    (hmids : ∀ m ∈ midsFrom sr sc path, in_bounds m.1 m.2 = true) (x y : Int) :
    getCell (apply_move b (sr, sc, path)) x y =
      if (x, y) = lastPos sr sc path then applyVal (getCell b sr sc) (lastPos sr sc path).1
      else if (x, y) ∈ midsFrom sr sc path then 0
      else if (x, y) = (sr, sc) then 0
      else getCell b x y := by
  have hWF0 := BoardWF_setCell b hWF sr sc 0
  have hWF1 := BoardWF_clearJumped _ hWF0 sr sc path
  simp only [apply_move, clearJumped_snd]
  set nb1 := (clearJumped (setCell b sr sc 0) sr sc path).1 with hnb1
  set L := lastPos sr sc path with hL
  have hWF2 : BoardWF (setCell nb1 L.1 L.2 (getCell b sr sc)) :=
    BoardWF_setCell _ hWF1 _ _ _
  have hself : getCell (setCell nb1 L.1 L.2 (getCell b sr sc)) L.1 L.2 = getCell b sr sc := by
    exact getCell_setCell_self _ hWF1 hlast _
  by_cases hxL : (x, y) = L
  · obtain ⟨hx, hy⟩ := Prod.mk.injEq .. |>.mp hxL
    subst hx; subst hy
    rw [if_pos rfl]
    by_cases hc1 : getCell b sr sc = 1 ∧ L.1 = 0
    · rw [if_pos (show getCell (setCell nb1 L.1 L.2 (getCell b sr sc)) L.1 L.2 = 1 ∧
          L.1 = 0 from ⟨by rw [hself]; exact hc1.1, hc1.2⟩)]
      have h24 := getCell_setCell_self _ hWF2 hlast (2 : Int)
      rw [if_neg (fun hcc => by rw [h24] at hcc; exact absurd hcc.1 (by decide) :
        ¬(getCell (setCell (setCell nb1 L.1 L.2 (getCell b sr sc)) L.1 L.2 2) L.1 L.2 = -1 ∧
          L.1 = 7)), h24]
      unfold applyVal
      rw [if_pos hc1]
    · rw [if_neg (show ¬(getCell (setCell nb1 L.1 L.2 (getCell b sr sc)) L.1 L.2 = 1 ∧
          L.1 = 0) from fun hcc => hc1 ⟨by rw [← hself]; exact hcc.1, hcc.2⟩)]
      by_cases hc2 : getCell b sr sc = -1 ∧ L.1 = 7
      · rw [if_pos (show getCell (setCell nb1 L.1 L.2 (getCell b sr sc)) L.1 L.2 = -1 ∧
            L.1 = 7 from ⟨by rw [hself]; exact hc2.1, hc2.2⟩)]
        rw [getCell_setCell_self _ hWF2 hlast (-2 : Int)]
        unfold applyVal
        rw [if_neg hc1, if_pos hc2]
      · rw [if_neg (show ¬(getCell (setCell nb1 L.1 L.2 (getCell b sr sc)) L.1 L.2 = -1 ∧
            L.1 = 7) from fun hcc => hc2 ⟨by rw [← hself]; exact hcc.1, hcc.2⟩), hself]
        unfold applyVal
        rw [if_neg hc1, if_neg hc2]
  · rw [if_neg hxL]
    have hxLne : ¬(x = L.1 ∧ y = L.2) := fun hh => hxL (Prod.ext hh.1 hh.2)
    have hbase : getCell (setCell nb1 L.1 L.2 (getCell b sr sc)) x y =
        (if (x, y) ∈ midsFrom sr sc path then 0
          else if (x, y) = (sr, sc) then 0 else getCell b x y) := by
      rw [getCell_setCell_ne _ _ _ _ hlast hxLne, hnb1,
        getCell_clearJumped _ hWF0 sr sc path hmids]
      by_cases hxm : (x, y) ∈ midsFrom sr sc path
      · rw [if_pos hxm, if_pos hxm]
      · rw [if_neg hxm, if_neg hxm]
        by_cases hxo : (x, y) = (sr, sc)
        · obtain ⟨hx, hy⟩ := Prod.mk.injEq .. |>.mp hxo
          subst hx; subst hy
          rw [if_pos rfl]
          exact getCell_setCell_self _ hWF hin 0
        · rw [if_neg hxo]
          exact getCell_setCell_ne _ _ _ _ hin (fun hh => hxo (Prod.ext hh.1 hh.2))
    have promo_ne : ∀ (nb : Board) (P : Prop) (inst : Decidable P) (v : Int),
        getCell (@ite _ P inst (setCell nb L.1 L.2 v) nb) x y = getCell nb x y := by
      intro nb P inst v
      split
      · exact getCell_setCell_ne _ _ _ _ hlast hxLne
      · rfl
    rw [promo_ne, promo_ne]
    exact hbase

theorem BoardWF_apply_move (b : Board) (hWF : BoardWF b) (mv : Int × Int × List Coord) :
    BoardWF (apply_move b mv) := by
  obtain ⟨sr, sc, path⟩ := mv
  simp only [apply_move]
  have h1 := BoardWF_clearJumped _ (BoardWF_setCell b hWF sr sc 0) sr sc path
  have h2 := BoardWF_setCell _ h1 (clearJumped (setCell b sr sc 0) sr sc path).2.1
    (clearJumped (setCell b sr sc 0) sr sc path).2.2 (getCell b sr sc)
  split
  · split
    · exact BoardWF_setCell _ (BoardWF_setCell _ h2 _ _ _) _ _ _
    · exact BoardWF_setCell _ h2 _ _ _
  · split
    · exact BoardWF_setCell _ h2 _ _ _
    · exact h2

/-- C5 counterexample: a Red king capture cycle produced by the move
generator itself ends back on its own origin square; applying it leaves the
moving piece there, so the origin square of this applied move is not
emptied. -/
theorem apply_move_origin_not_emptied :
    [((4 : Int), (4 : Int)), (2, 6), (0, 4), (2, 2)] ∈ (get_piece_moves diamondBoard 2 2).2 ∧
      getCell (apply_move diamondBoard
        (2, 2, [((4 : Int), (4 : Int)), (2, 6), (0, 4), (2, 2)])) 2 2 = 2 :=
  ⟨by decide, by decide⟩

/-- C5 (amended): for every board and in-bounds move, `apply_move` puts the
moving piece (crowned when the final row is its far row) on the path's final
square; it empties the origin unless the origin is that final square; it
clears the middle square of every hop of row- or column-distance two unless
that square is the final square; and it changes no other square — in
particular hops of distance one clear nothing. -/
theorem apply_move_effect (b : Board) (sr sc : Int) (path : List Coord)
    (hWF : BoardWF b) (hin : in_bounds sr sc = true)
    (hlast : in_bounds (lastPos sr sc path).1 (lastPos sr sc path).2 = true)
    (hmids : ∀ m ∈ midsFrom sr sc path, in_bounds m.1 m.2 = true) :
    getCell (apply_move b (sr, sc, path)) (lastPos sr sc path).1 (lastPos sr sc path).2 =
      applyVal (getCell b sr sc) (lastPos sr sc path).1 ∧
    ((sr, sc) ≠ lastPos sr sc path → getCell (apply_move b (sr, sc, path)) sr sc = 0) ∧
    (∀ m ∈ midsFrom sr sc path, m ≠ lastPos sr sc path →
      getCell (apply_move b (sr, sc, path)) m.1 m.2 = 0) ∧
    (∀ x y, (x, y) ≠ lastPos sr sc path → (x, y) ∉ midsFrom sr sc path →
      (x, y) ≠ (sr, sc) → getCell (apply_move b (sr, sc, path)) x y = getCell b x y) := by
  refine ⟨?_, ?_, ?_, ?_⟩
  · rw [getCell_apply_move b hWF sr sc path hin hlast hmids, if_pos rfl]
  · intro hne
    rw [getCell_apply_move b hWF sr sc path hin hlast hmids, if_neg hne]
    split
    · rfl
    · rw [if_pos rfl]
  · intro m hm hne
    rw [getCell_apply_move b hWF sr sc path hin hlast hmids,
      if_neg (by rw [Prod.mk.eta]; exact hne), if_pos (by rw [Prod.mk.eta]; exact hm)]
  · intro x y h1 h2 h3
    rw [getCell_apply_move b hWF sr sc path hin hlast hmids,
      if_neg h1, if_neg h2, if_neg h3]

theorem apply_move_effect_witness :
    getCell (apply_move promoBoard (2, 1, [((0 : Int), (3 : Int)), (2, 5)])) 2 1 = 0 :=
  (apply_move_effect promoBoard 2 1 [((0 : Int), (3 : Int)), (2, 5)]
    (by decide) (by decide) (by decide) (by decide)).2.1 (by decide)

/-! ### C2 and C3: a Man\'s capture chain and mid-chain promotion -/

/-- C2 as stated: every hop of the path moves in the Man\'s own forward row
direction (toward row 0 for Red, `side = 1`; toward row 7 for Blue,
`side = -1`). -/
def allHopsForward (side : Int) : Int → List Coord → Bool
  | _, [] => true
  | cr, (lr, _) :: rest => decide (lr = cr - 2 * side) && allHopsForward side lr rest

/-- C2 amended: hops move forward until one lands on the promotion row — the
scratch board crowns the piece there, and the remaining hops are the King\'s. -/
def manChainOK (side : Int) : Int → List Coord → Bool
  | _, [] => true
  | cr, (lr, _) :: rest =>
    decide (lr = cr - 2 * side) &&
      (if lr = (if side = 1 then 0 else 7) then true else manChainOK side lr rest)

/-- C2 counterexample: the Red man at (2,1) of `promoBoard` gets the capture
chain [(0,3), (2,5)] from the generator, and that chain\'s second hop moves
backward (row 0 to row 2), so not every hop of a Man\'s chain is forward. -/
theorem man_backward_capture_chain :
    getCell promoBoard 2 1 = 1 ∧
      [((0 : Int), (3 : Int)), (2, 5)] ∈ (get_piece_moves promoBoard 2 1).2 ∧
      allHopsForward 1 2 [((0 : Int), (3 : Int)), (2, 5)] = false :=
  ⟨by decide, by decide, by decide⟩

theorem isChain_man_forward {side : Int} (hside : side = 1 ∨ side = -1) :
    ∀ (p : List Coord) (bd : Board) (cr cc : Int), BoardWF bd → in_bounds cr cc = true →
      getCell bd cr cc = side → isChain bd cr cc p = true → manChainOK side cr p = true := by
  intro p
  induction p with
  | nil =>
    intro bd cr cc _ _ _ _
    rfl
  | cons hd rest ih =>
    obtain ⟨lr, lc⟩ := hd
    intro bd cr cc hWF hin hman hchain
    simp only [isChain, Bool.and_eq_true] at hchain
    obtain ⟨hhop, hrest⟩ := hchain
    obtain ⟨d, hdmem, h1, h2, hcj⟩ := validHop_iff.mp hhop
    obtain ⟨hu1, hu2⟩ := scanDirs_units hdmem
    have hd1 : d.1 = -side := by
      rcases hside with rfl | rfl
      · rw [hman, show scanDirs 1 = [((-1 : Int), (-1 : Int)), (-1, 1)] from by decide]
          at hdmem
        simp only [List.mem_cons, List.not_mem_nil, or_false] at hdmem
        rcases hdmem with rfl | rfl <;> decide
      · rw [hman, show scanDirs (-1) = [((1 : Int), (-1 : Int)), (1, 1)] from by decide]
          at hdmem
        simp only [List.mem_cons, List.not_mem_nil, or_false] at hdmem
        rcases hdmem with rfl | rfl <;> decide
    have hlr : lr = cr - 2 * side := by omega
    simp only [manChainOK, Bool.and_eq_true]
    refine ⟨by rw [decide_eq_true_eq]; exact hlr, ?_⟩
    by_cases hpromo : lr = (if side = 1 then (0 : Int) else 7)
    · rw [if_pos hpromo]
    · rw [if_neg hpromo]
      obtain ⟨hmb, hlb, -, -, -⟩ := canJump_iff.mp hcj
      subst h1
      subst h2
      rw [chainStep_eq_stepBoard hu1 hu2] at hrest
      refine ih (stepBoard bd cr cc d.1 d.2) (cr + 2 * d.1) (cc + 2 * d.2)
        (BoardWF_stepBoard bd hWF cr cc d.1 d.2) hlb ?_ hrest
      rw [getCell_stepBoard bd hWF hin hu1 hu2 hcj, if_pos ⟨rfl, rfl⟩]
      unfold stepVal
      rw [hman]
      rcases hside with rfl | rfl
      · rw [if_pos (show ((1 : Int) = 1) from rfl)] at hpromo
        rw [if_neg (fun h => hpromo h.2), if_neg (fun h => absurd h.1 (by decide))]
      · rw [if_neg (show ¬((-1 : Int) = 1) from by decide)] at hpromo
        rw [if_neg (fun h => absurd h.1 (by decide)), if_neg (fun h => hpromo h.2)]

/-- C2 (amended): every capture chain the generator returns for a Man moves
only in the Man\'s own forward diagonals hop after hop, up to the first hop
that lands on the piece\'s promotion row; the scratch board crowns it there
mid-chain, and from that point the chain may continue in all four
diagonals. -/
theorem man_capture_chains_forward_until_promotion (b : Board) (r c side : Int)
    (hWF : BoardWF b) (hin : in_bounds r c = true)
    (hside : side = 1 ∨ side = -1) (hman : getCell b r c = side) :
    ∀ p ∈ (get_piece_moves b r c).2, manChainOK side r p = true := by
  intro p hp
  obtain ⟨-, hmax⟩ := (mem_captures_iff hWF hin p).mp hp
  rw [maximalChain, Bool.and_eq_true] at hmax
  exact isChain_man_forward hside p b r c hWF hin hman hmax.1

theorem man_capture_chains_forward_until_promotion_witness :
    manChainOK 1 2 [((0 : Int), (3 : Int)), (2, 5)] = true :=
  man_capture_chains_forward_until_promotion promoBoard 2 1 1 (by decide) (by decide)
    (Or.inl rfl) (by decide) [((0 : Int), (3 : Int)), (2, 5)] (by decide)

/-- Follows the spec\'s words for C3: the same jump step as `stepBoard` but
with no crowning on the scratch board ("promotion is evaluated once, at the
final landing square of a move, not at intermediate jump squares"). -/
def stepBoardNoPromo (bd : Board) (cr cc dr dc : Int) : Board :=
  let nb := setCell bd (cr + 2 * dr) (cc + 2 * dc) (getCell bd cr cc)
  let nb := setCell nb cr cc 0
  setCell nb (cr + dr) (cc + dc) 0

/-- Follows the spec\'s words for C3: the capture search with intermediate
landings never promoting (to be compared with the source\'s `dfs`). -/
def dfsNoPromo (fuel : Nat) (bd : Board) (cr cc : Int) (path : List Coord) :
    List (List Coord) :=
  match fuel with
  | 0 => []
  | fuel + 1 =>
    let pc := getCell bd cr cc
    let js := (scanDirs pc).filter (fun d => canJump bd cr cc d.1 d.2)
    if js.isEmpty then (if path.isEmpty then [] else [path])
    else
      js.flatMap (fun d =>
        dfsNoPromo fuel (stepBoardNoPromo bd cr cc d.1 d.2) (cr + 2 * d.1) (cc + 2 * d.2)
          (path ++ [(cr + 2 * d.1, cc + 2 * d.2)]))

/-- Follows the spec\'s words for C3: capture generation with promotion
evaluated only by the applicator at the final landing square. -/
def capturesSpecPromoFinal (board : Board) (r c : Int) : List (List Coord) :=
  if getCell board r c = 0 then [] else dfsNoPromo 65 board r c []

/-- C3 counterexample: the generator\'s scratch board crowns the Red man at
the intermediate landing (0,3) — `stepBoard` writes a King (2) there — and
the search therefore extends the chain backward to (2,5); the spec\'s
promote-only-at-the-final-square search stops at [(0,3)].  Applying the
generated move then leaves an uncrowned man (1) at (2,5). -/
theorem promotion_applied_mid_chain :
    getCell (stepBoard promoBoard 2 1 (-1) 1) 0 3 = 2 ∧
      (get_piece_moves promoBoard 2 1).2 = [[((0 : Int), (3 : Int)), (2, 5)]] ∧
      capturesSpecPromoFinal promoBoard 2 1 = [[((0 : Int), (3 : Int))]] ∧
      getCell (apply_move promoBoard (2, 1, [((0 : Int), (3 : Int)), (2, 5)])) 2 5 = 1 :=
  ⟨by decide, by decide, by decide, by decide⟩

/-- C3 (amended): in the applied result board a Man is promoted exactly when
the move\'s final landing square is row 0 for Red or row 7 for Blue — never
at an intermediate square of the applied move; the generator\'s scratch
boards, however, crown a Man at every landing on its far row, including
intermediate landings of a multi-jump chain. -/
theorem promotion_final_in_apply_but_midchain_in_search (b : Board) (sr sc : Int)
    (path : List Coord) (hWF : BoardWF b) (hin : in_bounds sr sc = true)
    (hlast : in_bounds (lastPos sr sc path).1 (lastPos sr sc path).2 = true)
    (hmids : ∀ m ∈ midsFrom sr sc path, in_bounds m.1 m.2 = true) :
    (getCell b sr sc = 1 →
      (getCell (apply_move b (sr, sc, path)) (lastPos sr sc path).1
          (lastPos sr sc path).2 = 2 ↔ (lastPos sr sc path).1 = 0)) ∧
    (getCell b sr sc = -1 →
      (getCell (apply_move b (sr, sc, path)) (lastPos sr sc path).1
          (lastPos sr sc path).2 = -2 ↔ (lastPos sr sc path).1 = 7)) ∧
    (∀ cr cc dr dc : Int, in_bounds cr cc = true → dr.natAbs = 1 → dc.natAbs = 1 →
      canJump b cr cc dr dc = true → getCell b cr cc = 1 → cr + 2 * dr = 0 →
      getCell (stepBoard b cr cc dr dc) (cr + 2 * dr) (cc + 2 * dc) = 2) := by
  have happ := getCell_apply_move b hWF sr sc path hin hlast hmids
  refine ⟨?_, ?_, ?_⟩
  · intro hpc
    rw [happ, if_pos rfl]
    unfold applyVal
    rw [hpc]
    constructor
    · intro hv
      by_cases h0 : (lastPos sr sc path).1 = 0
      · exact h0
      · exfalso
        rw [if_neg (fun h => h0 h.2), if_neg (fun h => absurd h.1 (by decide))] at hv
        exact absurd hv (by decide)
    · intro h0
      rw [if_pos ⟨rfl, h0⟩]
  · intro hpc
    rw [happ, if_pos rfl]
    unfold applyVal
    rw [hpc]
    constructor
    · intro hv
      by_cases h7 : (lastPos sr sc path).1 = 7
      · exact h7
      · exfalso
        rw [if_neg (fun h => absurd h.1 (by decide)), if_neg (fun h => h7 h.2)] at hv
        exact absurd hv (by decide)
    · intro h7
      rw [if_neg (fun h => absurd h.1 (by decide)), if_pos ⟨rfl, h7⟩]
  · intro cr cc dr dc hin2 hu1 hu2 hcj hpc h0
    rw [getCell_stepBoard b hWF hin2 hu1 hu2 hcj, if_pos ⟨rfl, rfl⟩]
    unfold stepVal
    rw [hpc, if_pos ⟨rfl, h0⟩]

theorem promotion_final_in_apply_but_midchain_in_search_witness :
    getCell (apply_move promoBoard (2, 1, [((0 : Int), (3 : Int))])) 0 3 = 2 :=
  ((promotion_final_in_apply_but_midchain_in_search promoBoard 2 1
    [((0 : Int), (3 : Int))] (by decide) (by decide) (by decide) (by decide)).1
      (by decide)).mpr rfl

/-! ### C6 and C10: terminal detection and the winner -/

/-- A board with a single Red piece and no Blue pieces. -/
def redOnlyBoard : Board :=
  [[0, 0, 0, 0, 0, 0, 0, 0],
   [0, 0, 0, 0, 0, 0, 0, 0],
   [0, 0, 0, 0, 0, 1, 0, 0],
   [0, 0, 0, 0, 0, 0, 0, 0],
   [0, 0, 0, 0, 0, 0, 0, 0],
   [0, 0, 0, 0, 0, 0, 0, 0],
   [0, 0, 0, 0, 0, 0, 0, 0],
   [0, 0, 0, 0, 0, 0, 0, 0]]

/-- The empty board: neither side has a piece. -/
def emptyBoard : Board :=
  [[0, 0, 0, 0, 0, 0, 0, 0],
   [0, 0, 0, 0, 0, 0, 0, 0],
   [0, 0, 0, 0, 0, 0, 0, 0],
   [0, 0, 0, 0, 0, 0, 0, 0],
   [0, 0, 0, 0, 0, 0, 0, 0],
   [0, 0, 0, 0, 0, 0, 0, 0],
   [0, 0, 0, 0, 0, 0, 0, 0],
   [0, 0, 0, 0, 0, 0, 0, 0]]

theorem redAny_iff (b : Board) :
    redAny b = true ↔ ∃ rc ∈ coordList, getCell b rc.1 rc.2 > 0 := by
  rw [redAny, List.any_eq_true]
  simp only [decide_eq_true_eq]

theorem blueAny_iff (b : Board) :
    blueAny b = true ↔ ∃ rc ∈ coordList, getCell b rc.1 rc.2 < 0 := by
  rw [blueAny, List.any_eq_true]
  simp only [decide_eq_true_eq]

theorem winner_red_of {b : Board} (hr : redAny b = true) (hb : blueAny b = false) :
    winner b = some "Red" := by
  rw [winner, if_pos ⟨hr, fun h => by rw [h] at hb; cases hb⟩]

theorem winner_blue_of {b : Board} (hr : redAny b = false) (hb : blueAny b = true) :
    winner b = some "Blue" := by
  rw [winner, if_neg (fun h => by rw [hr] at h; exact absurd h.1 (by decide)),
    if_pos ⟨hb, fun h => by rw [h] at hr; cases hr⟩]

theorem winner_none_of_both {b : Board} (hr : redAny b = true) (hb : blueAny b = true) :
    winner b = none := by
  rw [winner, if_neg (fun h => h.2 hb), if_neg (fun h => h.2 hr)]

theorem winner_none_of_neither {b : Board} (hr : redAny b = false) (hb : blueAny b = false) :
    winner b = none := by
  rw [winner, if_neg (fun h => by rw [hr] at h; exact absurd h.1 (by decide)),
    if_neg (fun h => by rw [hb] at h; exact absurd h.1 (by decide))]

/-- C6: on every board where one side has at least one piece and the other
side has none, `is_terminal` reports the game over and `winner` names the
side that still has pieces — in particular Red when Blue has no pieces. -/
theorem zero_pieces_terminal_and_winner (b : Board) :
    ((∃ rc ∈ coordList, getCell b rc.1 rc.2 > 0) →
      (∀ rc ∈ coordList, ¬(getCell b rc.1 rc.2 < 0)) →
      is_terminal b = true ∧ winner b = some "Red") ∧
    ((∃ rc ∈ coordList, getCell b rc.1 rc.2 < 0) →
      (∀ rc ∈ coordList, ¬(getCell b rc.1 rc.2 > 0)) →
      is_terminal b = true ∧ winner b = some "Blue") := by
  constructor
  · intro hex hall
    have hr : redAny b = true := (redAny_iff b).mpr hex
    have hb : blueAny b = false := by
      cases hbv : blueAny b
      · rfl
      · obtain ⟨rc, hrc, hlt⟩ := (blueAny_iff b).mp hbv
        exact absurd hlt (hall rc hrc)
    exact ⟨by rw [is_terminal, hb]; simp, winner_red_of hr hb⟩
  · intro hex hall
    have hb : blueAny b = true := (blueAny_iff b).mpr hex
    have hr : redAny b = false := by
      cases hrv : redAny b
      · rfl
      · obtain ⟨rc, hrc, hgt⟩ := (redAny_iff b).mp hrv
        exact absurd hgt (hall rc hrc)
    exact ⟨by rw [is_terminal, hr]; simp, winner_blue_of hr hb⟩

theorem zero_pieces_terminal_and_winner_witness :
    is_terminal redOnlyBoard = true ∧ winner redOnlyBoard = some "Red" :=
  (zero_pieces_terminal_and_winner redOnlyBoard).1
    ⟨((2 : Int), (5 : Int)), by decide, by decide⟩ (by decide)

/-- C10: `winner` returns a side exactly when one side has at least one
piece and the other has none; and on a board where neither side has a piece,
`is_terminal` still reports the game over while `winner` returns `none` — a
terminal board need not have a winner. -/
theorem winner_iff_exactly_one_side (b : Board) :
    ((∃ s, winner b = some s) ↔
      (((∃ rc ∈ coordList, getCell b rc.1 rc.2 > 0) ∧
          ¬(∃ rc ∈ coordList, getCell b rc.1 rc.2 < 0)) ∨
        ((∃ rc ∈ coordList, getCell b rc.1 rc.2 < 0) ∧
          ¬(∃ rc ∈ coordList, getCell b rc.1 rc.2 > 0)))) ∧
    ((¬(∃ rc ∈ coordList, getCell b rc.1 rc.2 > 0) ∧
        ¬(∃ rc ∈ coordList, getCell b rc.1 rc.2 < 0)) →
      is_terminal b = true ∧ winner b = none) := by
  have hredF : redAny b = false → ¬(∃ rc ∈ coordList, getCell b rc.1 rc.2 > 0) :=
    fun hr hex => by have := (redAny_iff b).mpr hex; rw [hr] at this; cases this
  have hblueF : blueAny b = false → ¬(∃ rc ∈ coordList, getCell b rc.1 rc.2 < 0) :=
    fun hb hex => by have := (blueAny_iff b).mpr hex; rw [hb] at this; cases this
  constructor
  · cases hr : redAny b <;> cases hb : blueAny b
    · constructor
      · rintro ⟨s, hs⟩
        rw [winner_none_of_neither hr hb] at hs
        cases hs
      · rintro (⟨hex, -⟩ | ⟨hex, -⟩)
        · exact absurd hex (hredF hr)
        · exact absurd hex (hblueF hb)
    · constructor
      · intro _
        exact Or.inr ⟨(blueAny_iff b).mp hb, hredF hr⟩
      · intro _
        exact ⟨"Blue", winner_blue_of hr hb⟩
    · constructor
      · intro _
        exact Or.inl ⟨(redAny_iff b).mp hr, hblueF hb⟩
      · intro _
        exact ⟨"Red", winner_red_of hr hb⟩
    · constructor
      · rintro ⟨s, hs⟩
        rw [winner_none_of_both hr hb] at hs
        cases hs
      · rintro (⟨-, hnex⟩ | ⟨-, hnex⟩)
        · exact absurd ((blueAny_iff b).mp hb) hnex
        · exact absurd ((redAny_iff b).mp hr) hnex
  · rintro ⟨hnr, hnb⟩
    have hr : redAny b = false := by
      cases hrv : redAny b
      · rfl
      · exact absurd ((redAny_iff b).mp hrv) hnr
    have hb : blueAny b = false := by
      cases hbv : blueAny b
      · rfl
      · exact absurd ((blueAny_iff b).mp hbv) hnb
    exact ⟨by rw [is_terminal, hr]; simp, winner_none_of_neither hr hb⟩

theorem winner_iff_exactly_one_side_witness :
    is_terminal emptyBoard = true ∧ winner emptyBoard = none :=
  (winner_iff_exactly_one_side emptyBoard).2 ⟨by decide, by decide⟩

/-! ### C9: only dark squares are ever occupied -/

theorem mem_get_all_moves {b : Board} {pl : Int} {mv : Int × Int × List Coord}
    (h : mv ∈ get_all_moves b pl) :
    mv ∈ side_captures b pl ∨ mv ∈ side_normals b pl := by
  simp only [get_all_moves] at h
  by_cases hc : (side_captures b pl).isEmpty = true
  · rw [if_pos hc] at h
    exact Or.inr h
  · rw [if_neg hc] at h
    exact Or.inl h

theorem lastPos_mem (cr cc : Int) (p : List Coord) (h : p ≠ []) :
    lastPos cr cc p ∈ p := by
  induction p generalizing cr cc with
  | nil => exact absurd rfl h
  | cons hd rest ih =>
    obtain ⟨nr, nc⟩ := hd
    cases rest with
    | nil => exact List.mem_singleton.mpr rfl
    | cons hd2 rest2 =>
      exact List.mem_cons_of_mem _ (ih nr nc (by simp))

theorem chain_dark (p : List Coord) :
    ∀ (bd : Board) (cr cc : Int), isChain bd cr cc p = true →
      (∀ l ∈ p, in_bounds l.1 l.2 = true ∧ (l.1 + l.2) % 2 = (cr + cc) % 2) ∧
      (∀ m ∈ midsFrom cr cc p, in_bounds m.1 m.2 = true ∧
        (m.1 + m.2) % 2 = (cr + cc) % 2) := by
  induction p with
  | nil =>
    intro bd cr cc _
    exact ⟨fun l hl => absurd hl (List.not_mem_nil l), fun m hm => by
      simp [midsFrom] at hm⟩
  | cons hd rest ih =>
    obtain ⟨lr, lc⟩ := hd
    intro bd cr cc hchain
    simp only [isChain, Bool.and_eq_true] at hchain
    obtain ⟨hhop, hrest⟩ := hchain
    obtain ⟨d, hdmem, h1, h2, hcj⟩ := validHop_iff.mp hhop
    obtain ⟨hu1, hu2⟩ := scanDirs_units hdmem
    obtain ⟨hmb, hlb, -, -, -⟩ := canJump_iff.mp hcj
    obtain ⟨ihl, ihm⟩ := ih (chainStep bd cr cc lr lc) lr lc hrest
    have hland_in : in_bounds lr lc = true := by rw [h1, h2]; exact hlb
    have hland_par : (lr + lc) % 2 = (cr + cc) % 2 := by omega
    have hdist : (lr - cr).natAbs = 2 ∨ (lc - cc).natAbs = 2 := by omega
    have hmid_eq : ((lr + cr).fdiv 2, (lc + cc).fdiv 2) = (cr + d.1, cc + d.2) := by
      have e1 : lr + cr = 2 * (cr + d.1) := by omega
      have e2 : lc + cc = 2 * (cc + d.2) := by omega
      rw [e1, e2, Int.mul_fdiv_cancel_left _ (by decide),
        Int.mul_fdiv_cancel_left _ (by decide)]
    constructor
    · intro l hl
      rcases List.mem_cons.mp hl with rfl | hl2
      · exact ⟨hland_in, hland_par⟩
      · obtain ⟨hin2, hpar2⟩ := ihl l hl2
        exact ⟨hin2, by omega⟩
    · intro m hm
      simp only [midsFrom, if_pos hdist, List.singleton_append, List.mem_cons] at hm
      rcases hm with rfl | hm2
      · rw [hmid_eq]
        refine ⟨hmb, by simp only; omega⟩
      · obtain ⟨hin2, hpar2⟩ := ihm m hm2
        exact ⟨hin2, by omega⟩

/-- C9: the initial board places pieces only on dark squares (`(row+col)`
odd), and for every well-formed board satisfying that invariant and every
move produced by the side-wide move generator, the board `apply_move`
returns again has every light square (`(row+col)` even) empty. -/
theorem dark_squares_invariant :
    (∀ rc ∈ coordList, (rc.1 + rc.2) % 2 = 0 → getCell initial_board rc.1 rc.2 = 0) ∧
    (∀ (b : Board) (pl : Int) (mv : Int × Int × List Coord), BoardWF b →
      (∀ rc ∈ coordList, (rc.1 + rc.2) % 2 = 0 → getCell b rc.1 rc.2 = 0) →
      mv ∈ get_all_moves b pl →
      ∀ rc ∈ coordList, (rc.1 + rc.2) % 2 = 0 →
        getCell (apply_move b mv) rc.1 rc.2 = 0) := by
  constructor
  · decide
  · intro b pl mv hWF hinv hmv rc hrc hpar
    obtain ⟨sr, sc, path⟩ := mv
    have hrc_in : in_bounds rc.1 rc.2 = true :=
      mem_coordList_iff.mp (by rw [Prod.mk.eta]; exact hrc)
    rcases mem_get_all_moves hmv with hcap | hnorm
    · obtain ⟨hin, hown, hmem⟩ := mem_side_captures_iff.mp hcap
      simp only at hin hown hmem
      obtain ⟨hne, hmax⟩ := (mem_captures_iff hWF hin _).mp hmem
      rw [maximalChain, Bool.and_eq_true] at hmax
      obtain ⟨hlands, hmids⟩ := chain_dark path b sr sc hmax.1
      have horig_ne : getCell b sr sc ≠ 0 := by
        intro h0
        rw [h0, zero_mul] at hown
        exact absurd hown (by omega)
      have horig_dark : (sr + sc) % 2 ≠ 0 := by
        intro hpar0
        exact horig_ne (hinv (sr, sc) (mem_coordList_iff.mpr hin) hpar0)
      have hlast_mem := lastPos_mem sr sc path hne
      obtain ⟨hlast_in, hlast_par⟩ := hlands _ hlast_mem
      rw [getCell_apply_move b hWF sr sc path hin hlast_in
        (fun m hm => (hmids m hm).1) rc.1 rc.2]
      rw [if_neg (by
          intro heq
          rw [← heq] at hlast_par
          simp only at hlast_par
          omega),
        if_neg (by
          intro hmem2
          have hp2 := (hmids _ hmem2).2
          simp only at hp2
          omega),
        if_neg (by
          intro heq
          rw [Prod.mk.injEq] at heq
          have hval : getCell b rc.1 rc.2 = getCell b sr sc := by
            rw [heq.1, heq.2]
          rw [hinv rc hrc hpar] at hval
          exact horig_ne hval.symm)]
      exact hinv rc hrc hpar
    · obtain ⟨hin, hown, hmem⟩ := mem_side_normals_iff.mp hnorm
      simp only at hin hown hmem
      obtain ⟨-, d, hdmem, hp, hlin, -⟩ := mem_normals_iff.mp hmem
      obtain ⟨hu1, hu2⟩ := scanDirs_units hdmem
      subst hp
      have horig_ne : getCell b sr sc ≠ 0 := by
        intro h0
        rw [h0, zero_mul] at hown
        exact absurd hown (by omega)
      have horig_dark : (sr + sc) % 2 ≠ 0 := by
        intro hpar0
        exact horig_ne (hinv (sr, sc) (mem_coordList_iff.mpr hin) hpar0)
      have hlastv : lastPos sr sc [(sr + d.1, sc + d.2)] = (sr + d.1, sc + d.2) := rfl
      have hmids_nil : midsFrom sr sc [(sr + d.1, sc + d.2)] = [] := by
        simp only [midsFrom]
        rw [if_neg (by omega)]
        rfl
      rw [getCell_apply_move b hWF sr sc [(sr + d.1, sc + d.2)] hin
        (by rw [hlastv]; exact hlin) (by rw [hmids_nil]; intro m hm; cases hm) rc.1 rc.2]
      rw [if_neg (by
          rw [hlastv]
          intro heq
          rw [Prod.mk.injEq] at heq
          omega),
        if_neg (by rw [hmids_nil]; intro hmem2; cases hmem2),
        if_neg (by
          intro heq
          rw [Prod.mk.injEq] at heq
          have hval : getCell b rc.1 rc.2 = getCell b sr sc := by
            rw [heq.1, heq.2]
          rw [hinv rc hrc hpar] at hval
          exact horig_ne hval.symm)]
      exact hinv rc hrc hpar

theorem dark_squares_invariant_witness :
    getCell (apply_move initial_board (5, 0, [((4 : Int), (1 : Int))])) 0 0 = 0 :=
  dark_squares_invariant.2 initial_board 1 (5, 0, [((4 : Int), (1 : Int))])
    (by decide) (by decide) (by decide) ((0 : Int), (0 : Int)) (by decide) (by decide)

/-! ### C7: the session, and why a generated chain never leaves further captures -/

/-- The value the scratch board holds on the final square after running a
whole chain: crowning applies at every landing row of the chain. -/
def chainVal (v : Int) : List Coord → Int
  | [] => v
  | (lr, _) :: rest =>
    chainVal (if v = 1 ∧ lr = 0 then 2 else if v = -1 ∧ lr = 7 then -2 else v) rest

theorem chainVal_cases (p : List Coord) :
    ∀ v : Int, chainVal v p = v ∨ (v = 1 ∧ chainVal v p = 2) ∨
      (v = -1 ∧ chainVal v p = -2) := by
  induction p with
  | nil =>
    intro v
    exact Or.inl rfl
  | cons hd rest ih =>
    obtain ⟨lr, lc⟩ := hd
    intro v
    simp only [chainVal]
    by_cases h1 : v = 1 ∧ lr = 0
    · rw [if_pos h1]
      rcases ih 2 with h | ⟨h2, -⟩ | ⟨h2, -⟩
      · exact Or.inr (Or.inl ⟨h1.1, h⟩)
      · exact absurd h2 (by decide)
      · exact absurd h2 (by decide)
    · rw [if_neg h1]
      by_cases h2 : v = -1 ∧ lr = 7
      · rw [if_pos h2]
        rcases ih (-2) with h | ⟨h3, -⟩ | ⟨h3, -⟩
        · exact Or.inr (Or.inr ⟨h2.1, h⟩)
        · exact absurd h3 (by decide)
        · exact absurd h3 (by decide)
      · rw [if_neg h2]
        exact ih v

theorem chainVal_ne_zero (p : List Coord) {v : Int} (hv : v ≠ 0) : chainVal v p ≠ 0 := by
  rcases chainVal_cases p v with h | ⟨-, h⟩ | ⟨-, h⟩ <;> rw [h]
  · exact hv
  · decide
  · decide

theorem chainVal_promo_red (p : List Coord) :
    ∀ (cr cc : Int) (v : Int), p ≠ [] → (v = 1 ∨ v = 2) → (lastPos cr cc p).1 = 0 →
      chainVal v p = 2 := by
  induction p with
  | nil =>
    intro cr cc v h
    exact absurd rfl h
  | cons hd rest ih =>
    obtain ⟨lr, lc⟩ := hd
    intro cr cc v _ hv hlast
    simp only [chainVal]
    cases rest with
    | nil =>
      simp only [lastPos] at hlast
      rcases hv with rfl | rfl
      · rw [if_pos ⟨rfl, hlast⟩]
        rfl
      · rw [if_neg (fun h => absurd h.1 (by decide)),
          if_neg (fun h => absurd h.1 (by decide))]
        rfl
    | cons hd2 rest2 =>
      simp only [lastPos] at hlast
      refine ih lr lc _ (by simp) ?_ hlast
      rcases hv with rfl | rfl
      · by_cases h0 : lr = 0
        · rw [if_pos ⟨rfl, h0⟩]
          exact Or.inr rfl
        · rw [if_neg (fun h => h0 h.2), if_neg (fun h => absurd h.1 (by decide))]
          exact Or.inl rfl
      · rw [if_neg (fun h => absurd h.1 (by decide)),
          if_neg (fun h => absurd h.1 (by decide))]
        exact Or.inr rfl

theorem chainVal_promo_blue (p : List Coord) :
    ∀ (cr cc : Int) (v : Int), p ≠ [] → (v = -1 ∨ v = -2) → (lastPos cr cc p).1 = 7 →
      chainVal v p = -2 := by
  induction p with
  | nil =>
    intro cr cc v h
    exact absurd rfl h
  | cons hd rest ih =>
    obtain ⟨lr, lc⟩ := hd
    intro cr cc v _ hv hlast
    simp only [chainVal]
    cases rest with
    | nil =>
      simp only [lastPos] at hlast
      rcases hv with rfl | rfl
      · rw [if_neg (fun h => absurd h.1 (by decide)), if_pos ⟨rfl, hlast⟩]
        rfl
      · rw [if_neg (fun h => absurd h.1 (by decide)),
          if_neg (fun h => absurd h.1 (by decide))]
        rfl
    | cons hd2 rest2 =>
      simp only [lastPos] at hlast
      refine ih lr lc _ (by simp) ?_ hlast
      rcases hv with rfl | rfl
      · by_cases h7 : lr = 7
        · rw [if_neg (fun h => absurd h.1 (by decide)), if_pos ⟨rfl, h7⟩]
          exact Or.inr rfl
        · rw [if_neg (fun h => absurd h.1 (by decide)), if_neg (fun h => h7 h.2)]
          exact Or.inl rfl
      · rw [if_neg (fun h => absurd h.1 (by decide)),
          if_neg (fun h => absurd h.1 (by decide))]
        exact Or.inr rfl

theorem getCell_runState (p : List Coord) :
    ∀ (bd : Board) (cr cc : Int), BoardWF bd → in_bounds cr cc = true →
      getCell bd cr cc ≠ 0 → isChain bd cr cc p = true → p ≠ [] →
      ∀ x y : Int,
        getCell (runState bd cr cc p).1 x y =
          if (x, y) = lastPos cr cc p then chainVal (getCell bd cr cc) p
          else if (x, y) ∈ midsFrom cr cc p then 0
          else if (x, y) = (cr, cc) then 0
          else getCell bd x y := by
  induction p with
  | nil =>
    intro bd cr cc _ _ _ _ h
    exact absurd rfl h
  | cons hd rest ih =>
    obtain ⟨lr, lc⟩ := hd
    intro bd cr cc hWF hin hv hchain _ x y
    simp only [isChain, Bool.and_eq_true] at hchain
    obtain ⟨hhop, hrest⟩ := hchain
    obtain ⟨d, hdmem, h1, h2, hcj⟩ := validHop_iff.mp hhop
    obtain ⟨hu1, hu2⟩ := scanDirs_units hdmem
    obtain ⟨hmb, hlb, -, -, hland0⟩ := canJump_iff.mp hcj
    subst h1
    subst h2
    rw [chainStep_eq_stepBoard hu1 hu2] at hrest
    have hstepWF := BoardWF_stepBoard bd hWF cr cc d.1 d.2
    have hstep := getCell_stepBoard bd hWF hin hu1 hu2 hcj
    have hstepv : getCell (stepBoard bd cr cc d.1 d.2) (cr + 2 * d.1) (cc + 2 * d.2) =
        stepVal bd cr cc d.1 := by
      rw [hstep, if_pos ⟨rfl, rfl⟩]
    have hchainv : chainVal (getCell bd cr cc) ((cr + 2 * d.1, cc + 2 * d.2) :: rest) =
        chainVal (stepVal bd cr cc d.1) rest := by
      simp only [chainVal, stepVal]
    have hmid_eq : ((cr + 2 * d.1 + cr).fdiv 2, (cc + 2 * d.2 + cc).fdiv 2) =
        (cr + d.1, cc + d.2) := by
      have e1 : cr + 2 * d.1 + cr = 2 * (cr + d.1) := by ring
      have e2 : cc + 2 * d.2 + cc = 2 * (cc + d.2) := by ring
      rw [e1, e2, Int.mul_fdiv_cancel_left _ (by decide),
        Int.mul_fdiv_cancel_left _ (by decide)]
    have hmids_cons : midsFrom cr cc ((cr + 2 * d.1, cc + 2 * d.2) :: rest) =
        (cr + d.1, cc + d.2) :: midsFrom (cr + 2 * d.1) (cc + 2 * d.2) rest := by
      simp only [midsFrom]
      rw [if_pos (by omega), hmid_eq]
      rfl
    have hlast_cons : lastPos cr cc ((cr + 2 * d.1, cc + 2 * d.2) :: rest) =
        lastPos (cr + 2 * d.1) (cc + 2 * d.2) rest := rfl
    have hrun_cons : runState bd cr cc ((cr + 2 * d.1, cc + 2 * d.2) :: rest) =
        runState (stepBoard bd cr cc d.1 d.2) (cr + 2 * d.1) (cc + 2 * d.2) rest := by
      simp only [runState]
      rw [chainStep_eq_stepBoard hu1 hu2]
    rw [hrun_cons, hlast_cons, hmids_cons, hchainv]
    cases rest with
    | nil =>
      simp only [runState, lastPos, midsFrom, chainVal]
      rw [hstep]
      by_cases hxl : (x, y) = ((cr + 2 * d.1 : Int), (cc + 2 * d.2 : Int))
      · rw [Prod.mk.injEq] at hxl
        rw [if_pos hxl, if_pos (Prod.ext hxl.1 hxl.2)]
      · rw [if_neg (fun hh : x = cr + 2 * d.1 ∧ y = cc + 2 * d.2 =>
          hxl (Prod.mk.injEq .. |>.mpr hh)),
          if_neg (fun hh : (x, y) = ((cr + 2 * d.1 : Int), (cc + 2 * d.2 : Int)) =>
            hxl hh)]
        by_cases hxa : (x, y) = ((cr : Int), (cc : Int))
        · rw [Prod.mk.injEq] at hxa
          rw [if_pos hxa, if_neg (by
              simp only [List.mem_cons, List.not_mem_nil, or_false]
              intro hh
              rw [Prod.mk.injEq] at hh
              omega),
            if_pos (Prod.mk.injEq .. |>.mpr hxa)]
        · rw [Prod.mk.injEq] at hxa
          by_cases hxm : (x, y) = ((cr + d.1 : Int), (cc + d.2 : Int))
          · rw [Prod.mk.injEq] at hxm
            rw [if_neg (fun hh : x = cr ∧ y = cc => hxa hh), if_pos hxm,
              if_pos (by
                simp only [List.mem_cons]
                exact Or.inl (Prod.mk.injEq .. |>.mpr hxm))]
          · rw [Prod.mk.injEq] at hxm
            rw [if_neg (fun hh : x = cr ∧ y = cc => hxa hh),
              if_neg (fun hh : x = cr + d.1 ∧ y = cc + d.2 => hxm hh),
              if_neg (by
                simp only [List.mem_cons, List.not_mem_nil, or_false]
                intro hh
                rw [Prod.mk.injEq] at hh
                exact hxm hh),
              if_neg (fun hh : (x, y) = ((cr : Int), (cc : Int)) => by
                rw [Prod.mk.injEq] at hh
                exact hxa hh)]
    | cons hd2 rest2 =>
      have hvstep : getCell (stepBoard bd cr cc d.1 d.2) (cr + 2 * d.1) (cc + 2 * d.2) ≠ 0 := by
        rw [hstepv]
        exact stepVal_ne_zero hv
      rw [ih (stepBoard bd cr cc d.1 d.2) (cr + 2 * d.1) (cc + 2 * d.2) hstepWF hlb hvstep
        hrest (by simp) x y, hstepv]
      by_cases hxL : (x, y) = lastPos (cr + 2 * d.1) (cc + 2 * d.2) (hd2 :: rest2)
      · rw [if_pos hxL, if_pos hxL]
      · rw [if_neg hxL, if_neg hxL]
        by_cases hxm2 : (x, y) ∈ midsFrom (cr + 2 * d.1) (cc + 2 * d.2) (hd2 :: rest2)
        · rw [if_pos hxm2, if_pos (List.mem_cons_of_mem _ hxm2)]
        · rw [if_neg hxm2]
          by_cases hxland : (x, y) = ((cr + 2 * d.1 : Int), (cc + 2 * d.2 : Int))
          · rw [Prod.mk.injEq] at hxland
            rw [if_pos (Prod.mk.injEq .. |>.mpr hxland)]
            rw [if_neg (by
                simp only [List.mem_cons]
                rintro (hh | hh)
                · rw [Prod.mk.injEq] at hh
                  omega
                · exact hxm2 (by rw [Prod.mk.injEq .. |>.mpr hxland] at hh ⊢; exact hh)),
              if_neg (fun hh : (x, y) = ((cr : Int), (cc : Int)) => by
                rw [Prod.mk.injEq] at hh
                omega)]
            rw [hxland.1, hxland.2]
            exact hland0.symm
          · rw [if_neg hxland]
            rw [hstep]
            rw [if_neg (fun hh : x = cr + 2 * d.1 ∧ y = cc + 2 * d.2 =>
              hxland (Prod.mk.injEq .. |>.mpr hh))]
            by_cases hxa : x = cr ∧ y = cc
            · rw [if_pos hxa, if_neg (by
                  simp only [List.mem_cons]
                  rintro (hh | hh)
                  · rw [Prod.mk.injEq] at hh
                    omega
                  · exact hxm2 hh),
                if_pos (Prod.mk.injEq .. |>.mpr hxa)]
            · rw [if_neg hxa]
              by_cases hxm : x = cr + d.1 ∧ y = cc + d.2
              · rw [if_pos hxm, if_pos (by
                  simp only [List.mem_cons]
                  exact Or.inl (Prod.mk.injEq .. |>.mpr hxm))]
              · rw [if_neg hxm, if_neg (by
                    simp only [List.mem_cons]
                    rintro (hh | hh)
                    · rw [Prod.mk.injEq] at hh
                      exact hxm hh
                    · exact hxm2 hh),
                  if_neg (fun hh : (x, y) = ((cr : Int), (cc : Int)) => by
                    rw [Prod.mk.injEq] at hh
                    exact hxa hh)]

theorem runState_pos (p : List Coord) :
    ∀ (bd : Board) (cr cc : Int), (runState bd cr cc p).2 = lastPos cr cc p := by
  induction p with
  | nil =>
    intro bd cr cc
    rfl
  | cons hd rest ih =>
    obtain ⟨lr, lc⟩ := hd
    intro bd cr cc
    simp only [runState, lastPos]
    exact ih _ lr lc

theorem getLast?_eq_lastPos (p : List Coord) :
    ∀ cr cc : Int, p ≠ [] → p.getLast? = some (lastPos cr cc p) := by
  induction p with
  | nil =>
    intro cr cc h
    exact absurd rfl h
  | cons hd rest ih =>
    obtain ⟨nr, nc⟩ := hd
    intro cr cc _
    cases rest with
    | nil => rfl
    | cons hd2 rest2 =>
      rw [List.getLast?_cons_cons]
      exact ih nr nc (by simp)

theorem applyVal_chainVal_rel (p : List Coord) (cr cc : Int) (v : Int) (hp : p ≠ [])
    (hv : v ≠ 0) :
    applyVal v (lastPos cr cc p).1 * chainVal v p > 0 ∧
    ∀ d ∈ scanDirs (applyVal v (lastPos cr cc p).1), d ∈ scanDirs (chainVal v p) := by
  by_cases h1 : v = 1
  · subst h1
    by_cases hL0 : (lastPos cr cc p).1 = 0
    · have hA : applyVal 1 (lastPos cr cc p).1 = 2 := by
        unfold applyVal
        rw [if_pos ⟨rfl, hL0⟩]
      have hS : chainVal 1 p = 2 := chainVal_promo_red p cr cc 1 hp (Or.inl rfl) hL0
      rw [hA, hS]
      exact ⟨by decide, fun d hd => hd⟩
    · have hA : applyVal 1 (lastPos cr cc p).1 = 1 := by
        unfold applyVal
        rw [if_neg (fun h => hL0 h.2), if_neg (fun h => absurd h.1 (by decide))]
      rcases chainVal_cases p 1 with h | ⟨-, h⟩ | ⟨hq, -⟩
      · rw [hA, h]
        exact ⟨by decide, fun d hd => hd⟩
      · rw [hA, h]
        exact ⟨by decide, by decide⟩
      · exact absurd hq (by decide)
  · by_cases h2 : v = -1
    · subst h2
      by_cases hL7 : (lastPos cr cc p).1 = 7
      · have hA : applyVal (-1) (lastPos cr cc p).1 = -2 := by
          unfold applyVal
          rw [if_neg (fun h => absurd h.1 (by decide)), if_pos ⟨rfl, hL7⟩]
        have hS : chainVal (-1) p = -2 := chainVal_promo_blue p cr cc (-1) hp (Or.inl rfl) hL7
        rw [hA, hS]
        exact ⟨by decide, fun d hd => hd⟩
      · have hA : applyVal (-1) (lastPos cr cc p).1 = -1 := by
          unfold applyVal
          rw [if_neg (fun h => absurd h.1 (by decide)), if_neg (fun h => hL7 h.2)]
        rcases chainVal_cases p (-1) with h | ⟨hq, -⟩ | ⟨-, h⟩
        · rw [hA, h]
          exact ⟨by decide, fun d hd => hd⟩
        · exact absurd hq (by decide)
        · rw [hA, h]
          exact ⟨by decide, by decide⟩
    · have hA : applyVal v (lastPos cr cc p).1 = v := by
        unfold applyVal
        rw [if_neg (fun h => h1 h.1), if_neg (fun h => h2 h.1)]
      rcases chainVal_cases p v with h | ⟨hq, -⟩ | ⟨hq, -⟩
      · rw [hA, h]
        exact ⟨mul_self_pos.mpr hv, fun d hd => hd⟩
      · exact absurd hq h1
      · exact absurd hq h2

theorem hasJump_transport {A S : Board} {er ec : Int}
    (hagree : ∀ x y : Int, ¬(x = er ∧ y = ec) → getCell A x y = getCell S x y)
    (hprod : getCell A er ec * getCell S er ec > 0)
    (hdirs : ∀ d ∈ scanDirs (getCell A er ec), d ∈ scanDirs (getCell S er ec))
    (hnjS : hasJump S er ec = false) : hasJump A er ec = false := by
  cases hA : hasJump A er ec
  · rfl
  · exfalso
    rw [hasJump, List.any_eq_true] at hA
    obtain ⟨d, hd, hcj⟩ := hA
    obtain ⟨hu1, hu2⟩ := scanDirs_units hd
    obtain ⟨hmb, hlb, hmne, hmprod, hl0⟩ := canJump_iff.mp hcj
    have hmS := hagree (er + d.1) (ec + d.2) (by omega)
    have hlS := hagree (er + 2 * d.1) (ec + 2 * d.2) (by omega)
    have hSprod : getCell S (er + d.1) (ec + d.2) * getCell S er ec < 0 := by
      rw [← hmS]
      rcases mul_pos_iff.mp hprod with ⟨hA1, hS1⟩ | ⟨hA1, hS1⟩
      · rcases mul_neg_iff.mp hmprod with ⟨hm1, hm2⟩ | ⟨hm1, hm2⟩
        · exact absurd hA1 (by omega)
        · exact mul_neg_of_neg_of_pos hm1 hS1
      · rcases mul_neg_iff.mp hmprod with ⟨hm1, hm2⟩ | ⟨hm1, hm2⟩
        · exact mul_neg_of_pos_of_neg hm1 hS1
        · exact absurd hA1 (by omega)
    have hSJ : hasJump S er ec = true := by
      rw [hasJump, List.any_eq_true]
      refine ⟨d, hdirs d hd, ?_⟩
      rw [canJump_iff]
      exact ⟨hmb, hlb, by rw [← hmS]; exact hmne, hSprod, by rw [← hlS]; exact hl0⟩
    rw [hnjS] at hSJ
    cases hSJ

/-- After applying any capture chain the generator produced, the landing
square\'s piece has no further capture: the generated chains are maximal, the
applied board differs from the search\'s final scratch board at most in the
rank of the piece on the landing square, and a Man\'s jumps are a subset of a
King\'s. -/
theorem further_captures_empty (b : Board) (sr sc : Int) (p : List Coord)
    (hWF : BoardWF b) (hin : in_bounds sr sc = true)
    (hp : p ∈ (get_piece_moves b sr sc).2) :
    (get_piece_moves (apply_move b (sr, sc, p))
      (lastPos sr sc p).1 (lastPos sr sc p).2).2 = [] := by
  by_cases hv0 : getCell b sr sc = 0
  · rw [get_piece_moves_snd_nil hv0] at hp
    cases hp
  obtain ⟨hne, hmax⟩ := (mem_captures_iff hWF hin p).mp hp
  rw [maximalChain, Bool.and_eq_true] at hmax
  obtain ⟨hchain, hnjS⟩ := hmax
  obtain ⟨hlands, hmidsOK⟩ := chain_dark p b sr sc hchain
  have hlast_mem := lastPos_mem sr sc p hne
  obtain ⟨hlast_in, -⟩ := hlands _ hlast_mem
  have hmids_in : ∀ m ∈ midsFrom sr sc p, in_bounds m.1 m.2 = true :=
    fun m hm => (hmidsOK m hm).1
  have happ := getCell_apply_move b hWF sr sc p hin hlast_in hmids_in
  have hrun := getCell_runState p b sr sc hWF hin hv0 hchain hne
  have hvA : getCell (apply_move b (sr, sc, p)) (lastPos sr sc p).1 (lastPos sr sc p).2 =
      applyVal (getCell b sr sc) (lastPos sr sc p).1 := by
    rw [happ (lastPos sr sc p).1 (lastPos sr sc p).2, if_pos Prod.mk.eta]
  have hvS : getCell (runState b sr sc p).1 (lastPos sr sc p).1 (lastPos sr sc p).2 =
      chainVal (getCell b sr sc) p := by
    rw [hrun (lastPos sr sc p).1 (lastPos sr sc p).2, if_pos Prod.mk.eta]
  have hagree : ∀ x y : Int, ¬(x = (lastPos sr sc p).1 ∧ y = (lastPos sr sc p).2) →
      getCell (apply_move b (sr, sc, p)) x y = getCell (runState b sr sc p).1 x y := by
    intro x y hne2
    have hxyne : ¬((x, y) = lastPos sr sc p) := by
      intro hh
      rw [← hh] at hne2
      exact hne2 ⟨rfl, rfl⟩
    rw [happ x y, hrun x y, if_neg hxyne, if_neg hxyne]
  obtain ⟨hprod, hdirs⟩ := applyVal_chainVal_rel p sr sc (getCell b sr sc) hne hv0
  have hnjS2 : hasJump (runState b sr sc p).1 (lastPos sr sc p).1 (lastPos sr sc p).2
      = false := by
    rw [Bool.not_eq_true'] at hnjS
    rw [← runState_pos p b sr sc]
    exact hnjS
  have hnjA : hasJump (apply_move b (sr, sc, p)) (lastPos sr sc p).1 (lastPos sr sc p).2
      = false := by
    refine hasJump_transport hagree ?_ ?_ hnjS2
    · rw [hvA, hvS]
      exact hprod
    · rw [hvA, hvS]
      exact hdirs
  have hWFA := BoardWF_apply_move b hWF (sr, sc, p)
  rw [List.eq_nil_iff_forall_not_mem]
  intro q hq
  obtain ⟨hqne, hqmax⟩ := (mem_captures_iff hWFA hlast_in q).mp hq
  rw [maximalChain, Bool.and_eq_true] at hqmax
  obtain ⟨hqchain, -⟩ := hqmax
  cases q with
  | nil => exact hqne rfl
  | cons hd tl =>
    obtain ⟨lr, lc⟩ := hd
    simp only [isChain, Bool.and_eq_true] at hqchain
    obtain ⟨d, hdmem, -, -, hcj⟩ := validHop_iff.mp hqchain.1
    have : hasJump (apply_move b (sr, sc, p)) (lastPos sr sc p).1 (lastPos sr sc p).2
        = true := by
      rw [hasJump, List.any_eq_true]
      exact ⟨d, hdmem, hcj⟩
    rw [hnjA] at this
    cases this

/-- The interactive session state of `main`: current board, side to move
(`1` Red, `-1` Blue), the selected square with its offered paths, and the
undo stack of `(board, turn)` snapshots. -/
structure Session where
  board : Board
  turn : Int
  selected : Option Coord
  legal : List (List Coord)
  undo_stack : List (Board × Int)

/-- The `jumped` test of the destination handler: some hop of the chosen
path (measured from the selected square) spans two rows or two columns. -/
def jumpedB : Coord → List Coord → Bool
  | _, [] => false
  | (pr, pc), (nr, nc) :: rest =>
    decide ((nr - pr).natAbs = 2) || decide ((nc - pc).natAbs = 2) || jumpedB (nr, nc) rest

/-- The destination-click handler of `main`: if the clicked square is the
final square of one of the offered paths, push an undo snapshot, apply the
move, and either stay in a forced continuation (same player, only the moved
piece, only its further captures) when the move jumped and further captures
exist, or pass the turn.  A click that matches no offered path takes the
source's reselection branch, which never applies a move nor touches the
undo stack; it is modelled as leaving the session unchanged, which is all
the completed-turn property needs of it. -/
def chooseDest (s : Session) (r c : Int) : Session :=
  match s.selected with
  | none => s
  | some (sr, sc) =>
    match s.legal.find? (fun p => decide (p.getLast? = some (r, c))) with
    | none => s
    | some chosen =>
      let stack := (s.board, s.turn) :: s.undo_stack
      let nb := apply_move s.board (sr, sc, chosen)
      let further := (get_piece_moves nb r c).2
      if jumpedB (sr, sc) chosen && !further.isEmpty then
        { board := nb, turn := s.turn, selected := some (r, c), legal := further,
          undo_stack := stack }
      else
        { board := nb, turn := -s.turn, selected := none, legal := [],
          undo_stack := stack }

/-- The U-key handler of `main`: pop the most recent `(board, turn)`
snapshot and restore it, discarding any pending selection. -/
def undoStep (s : Session) : Session :=
  match s.undo_stack with
  | [] => s
  | (b, t) :: rest =>
    { board := b, turn := t, selected := none, legal := [], undo_stack := rest }

/-- C7: a destination click that chooses one of the offered paths always
completes the turn — the offered capture chains are maximal, so the
continuation branch never fires — and pressing undo right after restores
exactly the board and the side-to-move from immediately before the turn
began. -/
theorem undo_restores_pre_turn_state (s : Session) (sr sc r c : Int)
    (hWF : BoardWF s.board) (hin : in_bounds sr sc = true)
    (hsel : s.selected = some (sr, sc))
    (hlegal : s.legal = (get_piece_moves s.board sr sc).2 ∨
      s.legal = (get_piece_moves s.board sr sc).1)
    (hhit : ∃ p ∈ s.legal, p.getLast? = some (r, c)) :
    (chooseDest s r c).turn = -s.turn ∧ (chooseDest s r c).selected = none ∧
    (undoStep (chooseDest s r c)).board = s.board ∧
    (undoStep (chooseDest s r c)).turn = s.turn := by
  have hfind : ∃ chosen, s.legal.find? (fun p => decide (p.getLast? = some (r, c)))
      = some chosen := by
    obtain ⟨p, hp, hlastp⟩ := hhit
    have hsome : (s.legal.find? (fun p => decide (p.getLast? = some (r, c)))).isSome
        = true := by
      rw [List.find?_isSome]
      exact ⟨p, hp, by rw [decide_eq_true_eq]; exact hlastp⟩
    exact Option.isSome_iff_exists.mp hsome
  obtain ⟨chosen, hfind⟩ := hfind
  have hchosen_mem : chosen ∈ s.legal := List.mem_of_find?_eq_some hfind
  have hchosen_last : chosen.getLast? = some (r, c) := by
    have := List.find?_some hfind
    rw [decide_eq_true_eq] at this
    exact this
  have hbranch : (jumpedB (sr, sc) chosen &&
      !((get_piece_moves (apply_move s.board (sr, sc, chosen)) r c).2).isEmpty) = false := by
    rcases hlegal with hcap | hnorm
    · -- a capture chain was chosen: it is maximal, so no further captures
      rw [hcap] at hchosen_mem
      have hne : chosen ≠ [] := ((mem_captures_iff hWF hin chosen).mp hchosen_mem).1
      have hrc : ((r : Int), (c : Int)) = lastPos sr sc chosen := by
        have := getLast?_eq_lastPos chosen sr sc hne
        rw [this] at hchosen_last
        exact (Option.some_injective _ hchosen_last.symm)
      have hfurther := further_captures_empty s.board sr sc chosen hWF hin hchosen_mem
      have hrc1 : r = (lastPos sr sc chosen).1 := by rw [← hrc]
      have hrc2 : c = (lastPos sr sc chosen).2 := by rw [← hrc]
      rw [hrc1, hrc2, hfurther]
      simp
    · -- a normal single step was chosen: it jumps nothing
      rw [hnorm] at hchosen_mem
      obtain ⟨-, d, hdmem, hp, -, -⟩ := mem_normals_iff.mp hchosen_mem
      obtain ⟨hu1, hu2⟩ := scanDirs_units hdmem
      subst hp
      have : jumpedB (sr, sc) [(sr + d.1, sc + d.2)] = false := by
        simp only [jumpedB]
        rw [decide_eq_false (by omega), decide_eq_false (by omega)]
        rfl
      rw [this]
      rfl
  have hstep : chooseDest s r c =
      { board := apply_move s.board (sr, sc, chosen), turn := -s.turn, selected := none,
        legal := [], undo_stack := (s.board, s.turn) :: s.undo_stack } := by
    rw [chooseDest, hsel]
    simp only [hfind]
    rw [if_neg (by rw [hbranch]; exact fun h => absurd h (by decide))]
  rw [hstep]
  exact ⟨rfl, rfl, rfl, rfl⟩

/-- A Red man at (5,0) facing a Blue man at (4,1) with (3,2) empty: one
forced capture. -/
def sessionBoard : Board :=
  [[0, 0, 0, 0, 0, 0, 0, 0],
   [0, 0, 0, 0, 0, 0, 0, 0],
   [0, 0, 0, 0, 0, 0, 0, 0],
   [0, 0, 0, 0, 0, 0, 0, 0],
   [0, -1, 0, 0, 0, 0, 0, 0],
   [1, 0, 0, 0, 0, 0, 0, 0],
   [0, 0, 0, 0, 0, 0, 0, 0],
   [0, 0, 0, 0, 0, 0, 0, 0]]

/-- A session about to play that capture: Red to move, the piece at (5,0)
selected with its capture path offered, empty undo stack. -/
def session0 : Session :=
  { board := sessionBoard, turn := 1, selected := some (5, 0),
    legal := (get_piece_moves sessionBoard 5 0).2, undo_stack := [] }

theorem undo_restores_pre_turn_state_witness :
    (chooseDest session0 3 2).turn = -session0.turn ∧
      (chooseDest session0 3 2).selected = none ∧
      (undoStep (chooseDest session0 3 2)).board = session0.board ∧
      (undoStep (chooseDest session0 3 2)).turn = session0.turn :=
  undo_restores_pre_turn_state session0 5 0 3 2 (by decide) (by decide) rfl
    (Or.inl rfl) ⟨[((3 : Int), (2 : Int))], by decide, by decide⟩

/-! ### C8: the engine never mutates its input board -/

/-- A heap of board objects addressed by index: `clone_board` allocates a
fresh copy at the end, and every in-place write goes through an address.
This makes the source\'s aliasing and mutation behavior explicit. -/
structure Heap where
  boards : List Board

/-- Dereference an address. -/
def readH (h : Heap) (a : Nat) : Board := h.boards.getD a []

/-- The in-place write `board[r][c] = v` on the board at address `a`. -/
def writeH (h : Heap) (a : Nat) (r c v : Int) : Heap :=
  ⟨h.boards.set a (setCell (readH h a) r c v)⟩

/-- `clone_board(b)`: allocate a fresh copy and return its address. -/
def cloneH (h : Heap) (a : Nat) : Heap × Nat :=
  (⟨h.boards ++ [readH h a]⟩, h.boards.length)

/-- The in-place writes the capture search performs on a freshly cloned
board when it executes a jump (move the piece, clear origin and middle,
crown on the last row). -/
def jumpWritesH (h : Heap) (a : Nat) (cr cc dr dc : Int) : Heap :=
  let pcv := getCell (readH h a) cr cc
  let h1 := writeH h a (cr + 2 * dr) (cc + 2 * dc) pcv
  let h2 := writeH h1 a cr cc 0
  let h3 := writeH h2 a (cr + dr) (cc + dc) 0
  let h4 := if getCell (readH h3 a) (cr + 2 * dr) (cc + 2 * dc) = 1 ∧ cr + 2 * dr = 0 then
      writeH h3 a (cr + 2 * dr) (cc + 2 * dc) 2
    else h3
  if getCell (readH h4 a) (cr + 2 * dr) (cc + 2 * dc) = -1 ∧ cr + 2 * dr = 7 then
    writeH h4 a (cr + 2 * dr) (cc + 2 * dc) (-2)
  else h4

/-- The capture search `dfs` operating on the heap: it reads the board at
`bd`, and for every available jump clones `bd`, performs the jump\'s writes
on the clone only, and recurses on the clone\'s address. -/
def dfsH (fuel : Nat) (h : Heap) (bd : Nat) (cr cc : Int) (path : List Coord) :
    Heap × List (List Coord) :=
  match fuel with
  | 0 => (h, [])
  | fuel + 1 =>
    let pc := getCell (readH h bd) cr cc
    let step := (scanDirs pc).foldl
      (fun (acc : Heap × Bool × List (List Coord)) d =>
        if canJump (readH acc.1 bd) cr cc d.1 d.2 then
          ((dfsH fuel (jumpWritesH (cloneH acc.1 bd).1 (cloneH acc.1 bd).2 cr cc d.1 d.2)
              (cloneH acc.1 bd).2 (cr + 2 * d.1) (cc + 2 * d.2)
              (path ++ [(cr + 2 * d.1, cc + 2 * d.2)])).1,
            true,
            acc.2.2 ++ (dfsH fuel
              (jumpWritesH (cloneH acc.1 bd).1 (cloneH acc.1 bd).2 cr cc d.1 d.2)
              (cloneH acc.1 bd).2 (cr + 2 * d.1) (cc + 2 * d.2)
              (path ++ [(cr + 2 * d.1, cc + 2 * d.2)])).2)
        else acc)
      (h, false, [])
    if step.2.1 then (step.1, step.2.2)
    else (step.1, if path.isEmpty then [] else [path])

/-- `get_piece_moves` on the heap: normal moves only read; captures run the
heap-level search starting from the input board\'s own address. -/
def get_piece_movesH (h : Heap) (a : Nat) (r c : Int) :
    Heap × List (List Coord) × List (List Coord) :=
  let board := readH h a
  let piece := getCell board r c
  if piece = 0 then (h, [], [])
  else
    let king := piece.natAbs = 2
    let directions : List Coord :=
      if king then [(-1, -1), (-1, 1), (1, -1), (1, 1)]
      else if piece > 0 then [(-1, -1), (-1, 1)] else [(1, -1), (1, 1)]
    let normal_moves := directions.filterMap (fun d =>
      if in_bounds (r + d.1) (c + d.2) && decide (getCell board (r + d.1) (c + d.2) = 0)
      then some [(r + d.1, c + d.2)] else none)
    let res := dfsH 65 h a r c []
    (res.1, normal_moves, res.2)

/-- The midpoint-clearing walk of `apply_move` on the heap, writing through
the clone\'s address. -/
def clearJumpedH (h : Heap) (a : Nat) (cr cc : Int) : List Coord → Heap × Int × Int
  | [] => (h, cr, cc)
  | (nr, nc) :: rest =>
    let h1 := if (nr - cr).natAbs = 2 ∨ (nc - cc).natAbs = 2 then
        writeH h a ((nr + cr).fdiv 2) ((nc + cc).fdiv 2) 0
      else h
    clearJumpedH h1 a nr nc rest

/-- `apply_move` on the heap: clone the input board, mutate only the clone,
and return the clone\'s address. -/
def apply_moveH (h : Heap) (a : Nat) (mv : Int × Int × List Coord) : Heap × Nat :=
  let cl := cloneH h a
  let piece := getCell (readH cl.1 cl.2) mv.1 mv.2.1
  let h2 := writeH cl.1 cl.2 mv.1 mv.2.1 0
  let walk := clearJumpedH h2 cl.2 mv.1 mv.2.1 mv.2.2
  let h3 := writeH walk.1 cl.2 walk.2.1 walk.2.2 piece
  let h4 := if getCell (readH h3 cl.2) walk.2.1 walk.2.2 = 1 ∧ walk.2.1 = 0 then
      writeH h3 cl.2 walk.2.1 walk.2.2 2
    else h3
  let h5 := if getCell (readH h4 cl.2) walk.2.1 walk.2.2 = -1 ∧ walk.2.1 = 7 then
      writeH h4 cl.2 walk.2.1 walk.2.2 (-2)
    else h4
  (h5, cl.2)

theorem readH_writeH_ne (h : Heap) (a b : Nat) (hne : b ≠ a) (r c v : Int) :
    readH (writeH h a r c v) b = readH h b := by
  unfold readH writeH
  rw [getD_set_split]
  rw [if_neg (fun hh => hne hh.1.symm)]

theorem len_writeH (h : Heap) (a : Nat) (r c v : Int) :
    (writeH h a r c v).boards.length = h.boards.length := by
  unfold writeH
  exact List.length_set _ _ _

theorem readH_cloneH (h : Heap) (a b : Nat) (hb : b < h.boards.length) :
    readH (cloneH h a).1 b = readH h b := by
  unfold readH cloneH
  exact List.getD_append _ _ _ _ hb

theorem len_cloneH (h : Heap) (a : Nat) :
    (cloneH h a).1.boards.length = h.boards.length + 1 := by
  simp [cloneH]

theorem readH_jumpWritesH_ne (h : Heap) (a : Nat) (cr cc dr dc : Int) (b : Nat)
    (hne : b ≠ a) :
    readH (jumpWritesH h a cr cc dr dc) b = readH h b := by
  simp only [jumpWritesH]
  have hw := fun (hh : Heap) (r c v : Int) => readH_writeH_ne hh a b hne r c v
  split
  · split
    · rw [hw, hw, hw, hw, hw]
    · rw [hw, hw, hw, hw]
  · split
    · rw [hw, hw, hw, hw]
    · rw [hw, hw, hw]

theorem len_jumpWritesH (h : Heap) (a : Nat) (cr cc dr dc : Int) :
    (jumpWritesH h a cr cc dr dc).boards.length = h.boards.length := by
  simp only [jumpWritesH]
  split
  · split
    · rw [len_writeH, len_writeH, len_writeH, len_writeH, len_writeH]
    · rw [len_writeH, len_writeH, len_writeH, len_writeH]
  · split
    · rw [len_writeH, len_writeH, len_writeH, len_writeH]
    · rw [len_writeH, len_writeH, len_writeH]

theorem dfsH_preserves (fuel : Nat) :
    ∀ (h : Heap) (bd : Nat) (cr cc : Int) (path : List Coord),
      h.boards.length ≤ (dfsH fuel h bd cr cc path).1.boards.length ∧
      ∀ b, b < h.boards.length →
        readH (dfsH fuel h bd cr cc path).1 b = readH h b := by
  induction fuel with
  | zero =>
    intro h bd cr cc path
    exact ⟨Nat.le_refl _, fun b _ => rfl⟩
  | succ n ih =>
    intro h bd cr cc path
    simp only [dfsH]
    have hfold : ∀ (ds : List Coord) (acc : Heap × Bool × List (List Coord)),
        h.boards.length ≤ acc.1.boards.length →
        (∀ b, b < h.boards.length → readH acc.1 b = readH h b) →
        h.boards.length ≤ (ds.foldl
          (fun (acc : Heap × Bool × List (List Coord)) d =>
            if canJump (readH acc.1 bd) cr cc d.1 d.2 then
              ((dfsH n (jumpWritesH (cloneH acc.1 bd).1 (cloneH acc.1 bd).2 cr cc d.1 d.2)
                  (cloneH acc.1 bd).2 (cr + 2 * d.1) (cc + 2 * d.2)
                  (path ++ [(cr + 2 * d.1, cc + 2 * d.2)])).1,
                true,
                acc.2.2 ++ (dfsH n
                  (jumpWritesH (cloneH acc.1 bd).1 (cloneH acc.1 bd).2 cr cc d.1 d.2)
                  (cloneH acc.1 bd).2 (cr + 2 * d.1) (cc + 2 * d.2)
                  (path ++ [(cr + 2 * d.1, cc + 2 * d.2)])).2)
            else acc) acc).1.boards.length ∧
        ∀ b, b < h.boards.length →
          readH ((ds.foldl
            (fun (acc : Heap × Bool × List (List Coord)) d =>
              if canJump (readH acc.1 bd) cr cc d.1 d.2 then
                ((dfsH n (jumpWritesH (cloneH acc.1 bd).1 (cloneH acc.1 bd).2 cr cc d.1 d.2)
                    (cloneH acc.1 bd).2 (cr + 2 * d.1) (cc + 2 * d.2)
                    (path ++ [(cr + 2 * d.1, cc + 2 * d.2)])).1,
                  true,
                  acc.2.2 ++ (dfsH n
                    (jumpWritesH (cloneH acc.1 bd).1 (cloneH acc.1 bd).2 cr cc d.1 d.2)
                    (cloneH acc.1 bd).2 (cr + 2 * d.1) (cc + 2 * d.2)
                    (path ++ [(cr + 2 * d.1, cc + 2 * d.2)])).2)
              else acc) acc).1) b = readH h b := by
      intro ds
      induction ds with
      | nil =>
        intro acc hlen hread
        exact ⟨hlen, hread⟩
      | cons d ds ihd =>
        intro acc hlen hread
        rw [List.foldl_cons]
        by_cases hcj : canJump (readH acc.1 bd) cr cc d.1 d.2 = true
        · rw [if_pos hcj]
          have hlcl := len_cloneH acc.1 bd
          have hljw := len_jumpWritesH (cloneH acc.1 bd).1 (cloneH acc.1 bd).2 cr cc d.1 d.2
          have hihn := ih (jumpWritesH (cloneH acc.1 bd).1 (cloneH acc.1 bd).2 cr cc d.1 d.2)
            (cloneH acc.1 bd).2 (cr + 2 * d.1) (cc + 2 * d.2)
            (path ++ [(cr + 2 * d.1, cc + 2 * d.2)])
          refine ihd _ ?_ ?_
          · dsimp only
            omega
          · intro b hb
            dsimp only
            have hb1 : b < acc.1.boards.length := Nat.lt_of_lt_of_le hb hlen
            have hne : b ≠ (cloneH acc.1 bd).2 := by
              simp only [cloneH]
              omega
            rw [hihn.2 b (by omega)]
            rw [readH_jumpWritesH_ne _ _ _ _ _ _ _ hne]
            rw [readH_cloneH acc.1 bd b hb1]
            exact hread b hb
        · rw [if_neg hcj]
          exact ihd acc hlen hread
    have hmain := hfold (scanDirs (getCell (readH h bd) cr cc)) (h, false, [])
      (Nat.le_refl _) (fun b _ => rfl)
    split
    · exact hmain
    · exact hmain

theorem clearJumpedH_preserves (p : List Coord) :
    ∀ (h : Heap) (a : Nat) (cr cc : Int) (b : Nat), b ≠ a →
      readH (clearJumpedH h a cr cc p).1 b = readH h b := by
  induction p with
  | nil =>
    intro h a cr cc b _
    rfl
  | cons hd rest ihp =>
    obtain ⟨nr, nc⟩ := hd
    intro h a cr cc b hne
    simp only [clearJumpedH]
    split
    · rw [ihp _ _ nr nc b hne, readH_writeH_ne _ _ _ hne]
    · rw [ihp _ _ nr nc b hne]

/-- C8: the move generator and the move applicator never mutate their input
board.  On the heap model, running `get_piece_moves` from any address leaves
every pre-existing board object — the input board included — unchanged (the
capture search mutates only the fresh clones it allocates), and `apply_move`
returns a newly allocated board while leaving every pre-existing board
unchanged. -/
theorem engine_never_mutates_input_board :
    (∀ (h : Heap) (a : Nat) (r c : Int) (b : Nat), b < h.boards.length →
      readH (get_piece_movesH h a r c).1 b = readH h b) ∧
    (∀ (h : Heap) (a : Nat) (mv : Int × Int × List Coord) (b : Nat),
      b < h.boards.length →
      readH (apply_moveH h a mv).1 b = readH h b ∧ (apply_moveH h a mv).2 ≠ b) := by
  constructor
  · intro h a r c b hb
    simp only [get_piece_movesH]
    split
    · rfl
    · exact (dfsH_preserves 65 h a r c []).2 b hb
  · intro h a mv b hb
    have hne : b ≠ (cloneH h a).2 := by
      simp only [cloneH]
      omega
    constructor
    · simp only [apply_moveH]
      have hw := fun (hh : Heap) (r c v : Int) => readH_writeH_ne hh (cloneH h a).2 b hne r c v
      have hcl := clearJumpedH_preserves mv.2.2 (writeH (cloneH h a).1 (cloneH h a).2
        mv.1 mv.2.1 0) (cloneH h a).2 mv.1 mv.2.1 b hne
      split
      · split
        · rw [hw, hw, hw, hcl, hw, readH_cloneH h a b hb]
        · rw [hw, hw, hcl, hw, readH_cloneH h a b hb]
      · split
        · rw [hw, hw, hcl, hw, readH_cloneH h a b hb]
        · rw [hw, hcl, hw, readH_cloneH h a b hb]
    · simp only [apply_moveH]
      exact fun hh => hne hh.symm

/-- A one-board heap holding `promoBoard` at address 0. -/
def heap0 : Heap := ⟨[promoBoard]⟩

theorem engine_never_mutates_input_board_witness :
    readH (get_piece_movesH heap0 0 2 1).1 0 = readH heap0 0 ∧
      readH (apply_moveH heap0 0 (2, 1, [((0 : Int), (3 : Int))])).1 0 = readH heap0 0 :=
  ⟨engine_never_mutates_input_board.1 heap0 0 2 1 0 (by decide),
    (engine_never_mutates_input_board.2 heap0 0 (2, 1, [((0 : Int), (3 : Int))]) 0
      (by decide)).1⟩

end Checkers
